import Mathlib

/-!
Verification development for the cbuild module-bundling layer
(`src/cbuild.ts`): path/URL codec, package resolver adapter
(`findPackage`), normalization interceptor (`newNormalize`), config
emitter (`writeConfig`) and dependency tree reporter (`makeTree`).

The embedding fixes the platform to POSIX (`path.sep = '/'`), so the
separator-rewriting branches of the codec are inert.  JavaScript objects
used as string-keyed tables are modelled as insertion-ordered association
lists: `Object.keys` enumerates keys in insertion order (the keys at play
are package names and `./`-prefixed paths, never array-index-like
strings), and assignment updates a present key in place or appends a
fresh one.  Asynchronous resolution is modelled by explicit state
passing; promise rejection is modelled with `Except`.
-/

namespace Cbuild

/-! ## String primitives

Structurally recursive stand-ins for the JS string operations used by
the source, so that every definition evaluates by kernel reduction. -/

/-- Comparison of two character lists by code point, the order JS
`Array.prototype.sort`'s default comparator induces on the ASCII strings
at play (JS compares UTF-16 units; on ASCII that is code-point order). -/
def charsLe : List Char → List Char → Bool
  | [], _ => true
  | _ :: _, [] => false
  | a :: as, b :: bs =>
    if a.toNat < b.toNat then true
    else if b.toNat < a.toNat then false
    else charsLe as bs

/-- String comparison used to model the `.sort()` calls in `writeConfig`. -/
def strLe (a b : String) : Bool := charsLe a.data b.data

/-- Insertion into a sorted list, the helper for `sortStrings`. -/
def insertSorted (s : String) : List String → List String
  | [] => [s]
  | t :: ts => if strLe s t then s :: t :: ts else t :: insertSorted s ts

/-- Model of `Object.keys(tbl).sort()`: insertion sort of the key list by
the default JS comparator. -/
def sortStrings : List String → List String
  | [] => []
  | s :: ss => insertSorted s (sortStrings ss)

/-- Bytes of the `file://` scheme marker stripped and added by the codec. -/
def fileScheme : List Char := ['f', 'i', 'l', 'e', ':', '/', '/']

/-- Model of `url2path` on POSIX: the replace of regex caret `file:` `//`
strips one leading `file://` occurrence; the `path.sep != '/'` branch is
inert on this platform. -/
def url2path (s : String) : String :=
  if fileScheme.isPrefixOf s.data then String.mk (s.data.drop 7) else s

/-- Model of `path2url` on POSIX: the replace of a leading slash by
`file:///` (so the result is `file://` followed by the original absolute
path); the `path.sep != '/'` branch is inert on this platform. -/
def path2url (s : String) : String :=
  match s.data with
  | '/' :: rest => String.mk (fileScheme ++ '/' :: rest)
  | _ => s

/-- Model of `pathName.replace(/.js$/, '/index.js')` in `newNormalize`.
The regex dot matches any single character except a newline, so the
pattern matches any string of length at least three ending in `js` whose
third-from-last character is not `'\n'`; the matched three characters are
replaced by `/index.js`. -/
def replaceJsSuffix (s : String) : String :=
  match s.data.reverse with
  | 's' :: 'j' :: c :: rest =>
    if c = '\n' then s else String.mk rest.reverse ++ "/index.js"
  | _ => s

/-- Splitting a character list at every `/`, producing the component
character lists (empty components preserved), as `String.split` on a
single-character separator does. -/
def splitSlashAux : List Char → List (List Char)
  | [] => [[]]
  | c :: rest =>
    match splitSlashAux rest with
    | comps =>
      if c = '/' then [] :: comps
      else
        match comps with
        | [] => [[c]]
        | h :: t => (c :: h) :: t

/-- Components of a string split at `/` (model of `s.split('/')`). -/
def splitSlash (s : String) : List String := (splitSlashAux s.data).map String.mk

/-- Joining components with `/`, the inverse of `splitSlash`. -/
def joinSlash : List String → String
  | [] => ""
  | [s] => s
  | s :: rest => s ++ "/" ++ joinSlash rest

/-- Discarding the common prefix of two component lists, the core of the
`path.relative` walk. -/
def dropCommon : List String → List String → List String × List String
  | a :: as, b :: bs =>
    if a = b then dropCommon as bs else (a :: as, b :: bs)
  | as, bs => (as, bs)

/-- Model of Node's `path.relative(from, to)` for normalized absolute
POSIX paths: drop the common leading components, then emit one `..` per
remaining component of `from` followed by the remaining components of
`to`. -/
def pathRelative (src dst : String) : String :=
  let p := dropCommon ((splitSlash src).filter (· ≠ ""))
                      ((splitSlash dst).filter (· ≠ ""))
  joinSlash (p.1.map (fun _ => "..") ++ p.2)

/-- ASCII lower-casing of one character, enough for the case-insensitive
match the grouping regex's `i` flag performs on `node_modules`. -/
def asciiLower (c : Char) : Char :=
  if 65 ≤ c.toNat ∧ c.toNat ≤ 90 then Char.ofNat (c.toNat + 32) else c

/-- Case-insensitive test for the dependency-container directory name,
matching the `i` flag on the grouping regex in `findPackage`. -/
def isNodeModulesDir (c : String) : Bool :=
  c.data.map asciiLower = "node_modules".data

/-- Prefix of a component list up to and including the first component
that is (case-insensitively) `node_modules` and is followed by at least
one further component, or `none` when there is no such component.  This
captures the leftmost match of the grouping regex in `findPackage`: the
regex needs a slash or the string start right before `node_modules` and
a slash right after it, and keeps everything up to the matched group. -/
def findNodeModules : List String → Option (List String)
  | [] => none
  | c :: cs =>
    if isNodeModulesDir c ∧ cs ≠ [] then some [c]
    else (findNodeModules cs).map (c :: ·)

/-- Model of the repository grouping computation in `findPackage`, the
replace of the case-insensitive regex matching a `node_modules` path
component and everything after its trailing slash by the captured group:
truncate the path after the first `node_modules` path component (keeping
it), or leave the path unchanged when no such component is followed by a
slash. -/
def repoGroupKey (s : String) : String :=
  match findNodeModules (splitSlash s) with
  | some pre => joinSlash pre
  | none => s

/-! ## Table primitives -/

/-- Lookup in an insertion-ordered string-keyed table. -/
def lookupStr {α : Type} (m : List (String × α)) (k : String) : Option α :=
  match m with
  | [] => none
  | (k', v) :: rest => if k = k' then some v else lookupStr rest k

/-- Model of JS property assignment `tbl[k] = v`: a present key keeps its
position and gets the new value, a fresh key is appended. -/
def jsSet {α : Type} (m : List (String × α)) (k : String) (v : α) : List (String × α) :=
  match m with
  | [] => [(k, v)]
  | (k', v') :: rest =>
    if k = k' then (k', v) :: rest else (k', v') :: jsSet rest k v

/-! ## Data model and the package resolver adapter (`findPackage`) -/

/-- One record per resolved dependency package (interface `PackageSpec`). -/
structure PackageSpec where
  entryPath : Option String
  rootPath : String
deriving DecidableEq, Repr

/-- Outcome the external resolution engine (`browser-resolve`) hands to
`findPackage` on success: the resolved file path, plus the data the
`packageFilter` callback captured from the last package manifest it saw
(`json.name` and `path.dirname(jsonPath)`), or `none` when the callback
was never invoked (then `rootName`/`rootPath` stay undefined). -/
structure ResolveResult where
  pathName : String
  pkgInfo : Option (String × String)
deriving DecidableEq, Repr

/-- Errors of the resolution layer: `internalModule` is the
`new Error('Internal module')` thrown by `findPackage` itself, and
`resolutionError` stands for any rejection of the external resolver. -/
inductive ModuleError where
  | internalModule
  | resolutionError
deriving DecidableEq, Repr

/-- Mutable per-session tables of `build`, plus `resolveCalls`, a ghost
counter of how many times the external resolver has been invoked (it
instruments the model; the source has no such variable). -/
structure BuildState where
  fixTbl : List (String × String)
  repoTbl : List (String × List (String × PackageSpec))
  resolveCalls : Nat
deriving DecidableEq, Repr

/-- External collaborators of one `build` session: the bundling base
path, the loader's static alias table `builder.loader.map` (an absent
table behaves as an empty one), the filesystem existence probe backing
`fs.stat` (true means the stat promise resolves), the original
systemjs-builder normalizer, and the external package resolution engine
(`none` means its promise rejects). -/
structure Env where
  basePath : String
  map : List (String × String)
  fs : String → Bool
  oldNormalize : String → String → String → String
  resolver : String → String → Option ResolveResult

/-- PackageSpec construction in `findPackage`: when the declaring
package's own manifest name equals the requested name, record the entry
point relative to the package root and the root relative to the base
directory; otherwise record only the resolved file's path relative to
the base directory (the source stores it in the `rootPath` field). -/
def mkPackageSpec (basePath name : String) (r : ResolveResult) : PackageSpec :=
  match r.pkgInfo with
  | some (rootName, rootPath) =>
    if rootName = name then
      { entryPath := some (path2url (pathRelative rootPath r.pathName)),
        rootPath := path2url (pathRelative basePath rootPath) }
    else
      { entryPath := none, rootPath := path2url (pathRelative basePath r.pathName) }
  | none => { entryPath := none, rootPath := path2url (pathRelative basePath r.pathName) }

/-- Model of `findPackage(name, parentName)`: invoke the external
resolver; fail with `internalModule` when the resolved path equals the
bare requested name; otherwise build the `PackageSpec`, store it in the
repository table under the grouping key of its `rootPath`, and return
the resolved path relative to the base directory, URL-encoded. -/
def findPackage (env : Env) (name parentName : String) (st : BuildState) :
    Except ModuleError String × BuildState :=
  let st := { st with resolveCalls := st.resolveCalls + 1 }
  match env.resolver name (url2path parentName) with
  | none => (.error .resolutionError, st)
  | some r =>
    if r.pathName = name then (.error .internalModule, st)
    else
      let spec := mkPackageSpec env.basePath name r
      let repoPath := repoGroupKey spec.rootPath
      let specTbl := (lookupStr st.repoTbl repoPath).getD []
      (.ok (path2url (pathRelative env.basePath r.pathName)),
       { st with repoTbl := jsSet st.repoTbl repoPath (jsSet specTbl name spec) })

/-! ## Normalization interceptor -/

/-- Failure of the interceptor model: only exhaustion of the recursion
fuel bounding the alias re-normalization loop (the source can recurse
through `builder.loader.normalize` without bound on a cyclic alias map). -/
inductive NormErr where
  | outOfFuel
deriving DecidableEq, Repr

/-- Tail of `newNormalize` past the alias check: probe the directory
index path; when it exists record the FixTable rewrite and return it;
otherwise fall back to `findPackage`, and on any resolution error return
the original candidate path unchanged. -/
def newNormalizeFallback (env : Env) (name parentName pathName : String)
    (st : BuildState) : Except NormErr String × BuildState :=
  let indexName := replaceJsSuffix pathName
  if env.fs (url2path indexName) then
    let oldPath := "./" ++ pathRelative env.basePath (url2path pathName)
    let newPath := "./" ++ pathRelative env.basePath (url2path indexName)
    (.ok indexName, { st with fixTbl := jsSet st.fixTbl oldPath newPath })
  else
    match findPackage env name parentName st with
    | (.ok p, st') => (.ok p, st')
    | (.error _, st') => (.ok pathName, st')

/-- Model of `newNormalize(name, parentName, parentAddress, pathName)`:
when the loader's static alias map redirects `name` to a different
non-empty specifier (JS truthiness makes an empty-string target fall
through), re-run the loader's normalize on the alias target — at that
point `builder.loader.normalize` is the replaced chain, passed here as
`renorm`; otherwise try the directory-index fallback and then package
resolution. -/
def newNormalize (env : Env)
    (renorm : String → String → String → BuildState → Except NormErr String × BuildState)
    (name parentName parentAddress pathName : String) (st : BuildState) :
    Except NormErr String × BuildState :=
  match lookupStr env.map name with
  | some other =>
    if other ≠ "" ∧ other ≠ name then
      renorm other parentName parentAddress st
    else newNormalizeFallback env name parentName pathName st
  | none => newNormalizeFallback env name parentName pathName st

/-- Model of the normalize function `build` installs on the loader: run
the original normalizer, probe the result's existence, and on a miss
hand over to `newNormalize` (which re-enters this chain on an alias
redirect).  The fuel bounds that alias recursion, which the source does
not bound at all. -/
def normalizeChain (env : Env) :
    Nat → String → String → String → BuildState → Except NormErr String × BuildState
  | 0, _, _, _, st => (.error .outOfFuel, st)
  | fuel + 1, name, parentName, parentAddress, st =>
    let pathName := env.oldNormalize name parentName parentAddress
    if env.fs (url2path pathName) then (.ok pathName, st)
    else newNormalize env (normalizeChain env fuel) name parentName parentAddress pathName st

/-! ## Config emitter (`writeConfig`) -/

/-- Merge of the per-repository package tables into one table keyed by
package name, exactly as the two nested `for` loops at the top of
`writeConfig` build `packageTbl`: repositories in insertion order, names
in insertion order, later bindings overwriting earlier ones. -/
def mergePackageTbl (repoTbl : List (String × List (String × PackageSpec))) :
    List (String × PackageSpec) :=
  repoTbl.foldl (fun acc e => e.2.foldl (fun a p => jsSet a p.1 p.2) acc) []

/-- Fallback record for a table read the source performs only on keys
returned by `Object.keys`, which are always present. -/
def defaultSpec : PackageSpec := { entryPath := none, rootPath := "" }

/-- Lines of the `map:` section: one per package name, names sorted. -/
def mapLines (packageTbl : List (String × PackageSpec)) : List String :=
  (sortStrings (packageTbl.map Prod.fst)).map (fun name =>
    "\t\t\"" ++ name ++ "\": \"" ++ ((lookupStr packageTbl name).getD defaultSpec).rootPath ++ "\"")

/-- The `map:` section of the emitted config. -/
def mapSection (packageTbl : List (String × PackageSpec)) : String :=
  "\tmap: \x7b\n" ++ String.intercalate ",\n" (mapLines packageTbl) ++ "\n\t\x7d"

/-- Lines of the `meta:` section: one global-process-shim directive per
repository grouping key, keys sorted. -/
def metaLines (repoTbl : List (String × List (String × PackageSpec))) (shimPath : String) :
    List String :=
  (sortStrings (repoTbl.map Prod.fst)).map (fun repoPath =>
    "\t\t\"" ++ repoPath ++ "/*\": \x7b globals: \x7b process: \"" ++ shimPath ++ "\" \x7d \x7d")

/-- The `meta:` section of the emitted config. -/
def metaSection (repoTbl : List (String × List (String × PackageSpec))) (shimPath : String) :
    String :=
  String.intercalate "\n" ["\tmeta: \x7b", String.intercalate ",\n" (metaLines repoTbl shimPath), "\t\x7d"]

/-- Lines of a FixTable rewrite map: `Object.keys(fixTbl)` in insertion
order (the source does not sort this list), each with its table value. -/
def fixLines (fixTbl : List (String × String)) : List String :=
  (fixTbl.map Prod.fst).map (fun path =>
    "\t\t\t\t\"" ++ path ++ "\": \"" ++ ((lookupStr fixTbl path).getD "") ++ "\"")

/-- Lines of the per-package entry-point overrides: packages with a
(truthy) `entryPath`, names sorted, others filtered out. -/
def mainLines (packageTbl : List (String × PackageSpec)) : List String :=
  (sortStrings (packageTbl.map Prod.fst)).filterMap (fun name =>
    match ((lookupStr packageTbl name).getD defaultSpec).entryPath with
    | some e => if e = "" then none else some ("\t\t\"" ++ name ++ "\": \x7b main: \"" ++ e ++ "\" \x7d")
    | none => none)

/-- The `packages:` section of the emitted config: the FixTable rewrite
map under the `"."` package followed by the per-package entry points. -/
def packagesSection (packageTbl : List (String × PackageSpec))
    (fixTbl : List (String × String)) : String :=
  String.intercalate "\n" [
    "\tpackages: \x7b",
    "\t\t\".\": \x7b",
    "\t\t\tmap: \x7b",
    String.intercalate ",\n" (fixLines fixTbl),
    "\t\t\t\x7d",
    "\t\t\x7d,",
    String.intercalate ",\n" (mainLines packageTbl),
    "\t\x7d"]

/-- The second, conditional `packages:` section repeating the FixTable
rewrites, emitted only when the FixTable is non-empty. -/
def fixSection (fixTbl : List (String × String)) : String :=
  "\tpackages: \x7b\n" ++ "\t\t\".\": \x7b\n" ++ "\t\t\tmap: \x7b\n" ++
  String.intercalate ",\n" (fixLines fixTbl) ++ "\n\t\t\t\x7d\n\t\t\x7d\n\t\x7d"

/-- The full text `writeConfig` produces (and writes to
`options.outConfigPath`): the autogeneration comment directly
concatenated with the included config fragment texts, then the
`System.config` call with the sections joined by `,\n`. -/
def writeConfigOutput (includeTexts : List String)
    (repoTbl : List (String × List (String × PackageSpec)))
    (fixTbl : List (String × String)) (shimPath : String) : String :=
  let packageTbl := mergePackageTbl repoTbl
  let sectionList := [mapSection packageTbl, metaSection repoTbl shimPath,
                      packagesSection packageTbl fixTbl] ++
                     (if fixTbl.isEmpty then [] else [fixSection fixTbl])
  String.intercalate "\n" [
    "// Autogenerated using cbuild" ++ String.intercalate "\n" includeTexts,
    "System.config(\x7b",
    String.intercalate ",\n" sectionList,
    "\x7d);",
    ""]

/-- Options object for the build function (interface `BuildOptions`):
every field is optional, `none` modelling an absent (undefined) JS
property. -/
structure BuildOptions where
  debug : Option Bool := none
  sfx : Option Bool := none
  bundlePath : Option String := none
  sourcePath : Option String := none
  outConfigPath : Option String := none
  includeConfigList : Option (List String) := none
  mapPackages : Option (List String) := none

/-- Model of the `writeConfig` function itself: it reads each path of
`options.includeConfigList` through the filesystem (`readFile`) and
produces the emitted text.  The member access
`options.includeConfigList.map` faults (returns `none`, modelling the
thrown TypeError) when the property is absent. -/
def writeConfig (options : BuildOptions) (readFile : String → String)
    (repoTbl : List (String × List (String × PackageSpec)))
    (fixTbl : List (String × String)) (shimPath : String) : Option String :=
  match options.includeConfigList with
  | none => none
  | some paths => some (writeConfigOutput (paths.map readFile) repoTbl fixTbl shimPath)

/-! ## Helper predicates and concrete environments used by the theorems -/

/-- Whether the loader's static alias map sends `name` to a different,
truthy specifier — the condition guarding the re-normalization branch of
`newNormalize`. -/
def aliasRedirects (map : List (String × String)) (name : String) : Bool :=
  match lookupStr map name with
  | some other => other ≠ "" ∧ other ≠ name
  | none => false

/-- The empty per-session state every `build` call starts from. -/
def initialState : BuildState := { fixTbl := [], repoTbl := [], resolveCalls := 0 }

/-- Session where the alias map redirects `a` to `b`, the path `a`
normalizes to does not exist, its directory index does exist, and `b`
normalizes to an existing file. -/
def aliasEnv : Env where
  basePath := "/base"
  map := [("a", "b")]
  fs := fun p => p == "/base/b.js" || p == "/base/a/index.js"
  oldNormalize := fun n _ _ =>
    if n == "a" then "/base/a.js" else if n == "b" then "/base/b.js" else n
  resolver := fun _ _ => none

/-- Session where nothing exists on disk and the resolver finds the
package `lodash` with a matching manifest name. -/
def pkgEnv : Env where
  basePath := "/base"
  map := []
  fs := fun _ => false
  oldNormalize := fun n _ _ => "/base/" ++ n ++ ".js"
  resolver := fun n p =>
    if n == "lodash" && p == "/base/src/app.js" then
      some { pathName := "/base/node_modules/lodash/index.js",
             pkgInfo := some ("lodash", "/base/node_modules/lodash") }
    else none

/-- Session where the resolver lands inside package `lodash` for the
sub-module request `lodash/map`, so the manifest name differs from the
requested name. -/
def subModuleEnv : Env where
  basePath := "/base"
  map := []
  fs := fun _ => false
  oldNormalize := fun n _ _ => n
  resolver := fun n _ =>
    if n == "lodash/map" then
      some { pathName := "/base/node_modules/lodash/map.js",
             pkgInfo := some ("lodash", "/base/node_modules/lodash") }
    else none

/-- Session where the external resolver answers every request with the
bare requested name, the way it reports platform built-ins. -/
def builtinEnv : Env where
  basePath := "/base"
  map := []
  fs := fun _ => false
  oldNormalize := fun n _ _ => n
  resolver := fun n _ => some { pathName := n, pkgInfo := none }

/-! ## Claim theorems: package resolver adapter -/

/-- Unfolding of `newNormalize` when the alias map does not redirect. -/
theorem newNormalize_no_alias (env : Env) (renorm) (name parentName parentAddress pathName st)
    (h : aliasRedirects env.map name = false) :
    newNormalize env renorm name parentName parentAddress pathName st =
      newNormalizeFallback env name parentName pathName st := by
  unfold newNormalize
  unfold aliasRedirects at h
  cases hl : lookupStr env.map name with
  | none => simp
  | some other =>
    rw [hl] at h
    simp only [decide_eq_false_iff_not, not_and_or, not_not] at h
    simp only []
    rcases h with h | h <;> simp [h]

/-- External resolver invocation counting: every `findPackage` call hits
the resolver exactly once. -/
theorem findPackage_resolveCalls (env : Env) (name parentName : String) (st : BuildState) :
    (findPackage env name parentName st).2.resolveCalls = st.resolveCalls + 1 := by
  unfold findPackage
  cases env.resolver name (url2path parentName) with
  | none => rfl
  | some r =>
    by_cases h : r.pathName = name <;> simp [h]

/-- Membership in the key list after a JS assignment. -/
theorem mem_keys_jsSet {α : Type} (m : List (String × α)) (k : String) (v : α) (x : String) :
    x ∈ (jsSet m k v).map Prod.fst ↔ x ∈ m.map Prod.fst ∨ x = k := by
  induction m with
  | nil => simp [jsSet]
  | cons hd tl ih =>
    by_cases h : k = hd.1
    · subst h
      simp [jsSet]
      tauto
    · simp [jsSet, h, ih]
      tauto

/-- JS assignment preserves distinctness of the key list. -/
theorem jsSet_keys_nodup {α : Type} (m : List (String × α)) (k : String) (v : α)
    (h : (m.map Prod.fst).Nodup) : ((jsSet m k v).map Prod.fst).Nodup := by
  induction m with
  | nil => simp [jsSet]
  | cons hd tl ih =>
    simp only [List.map_cons, List.nodup_cons] at h
    by_cases hk : k = hd.1
    · subst hk
      simpa [jsSet] using h
    · simp only [jsSet, if_neg (fun he => hk he), List.map_cons, List.nodup_cons]
      exact ⟨fun hm => h.1 ((mem_keys_jsSet tl k v hd.1).mp hm |>.elim id
               (fun he => absurd he.symm hk)), ih h.2⟩

/-- Sorted insertion produces a permutation of pushing in front. -/
theorem insertSorted_perm (s : String) (l : List String) :
    (insertSorted s l).Perm (s :: l) := by
  induction l with
  | nil => exact List.Perm.refl _
  | cons t ts ih =>
    by_cases h : strLe s t = true
    · simp [insertSorted, h]
    · simp only [insertSorted, h, Bool.false_eq_true, if_false]
      exact (ih.cons t).trans (List.Perm.swap s t ts)

/-- The key sort in `writeConfig` permutes its input. -/
theorem sortStrings_perm (l : List String) : (sortStrings l).Perm l := by
  induction l with
  | nil => exact List.Perm.refl _
  | cons s ss ih => exact (insertSorted_perm s (sortStrings ss)).trans (ih.cons s)

/-! ## Claim theorems: package resolver adapter (C4, C5, C8) -/

/-- C5.  `findPackage` fails with `internalModule` exactly when the
externally resolved path equals the bare requested name, and in that
case the error is raised before any table write: both per-session tables
are left unchanged. -/
theorem findPackage_internal_module (env : Env) (name parentName : String)
    (st : BuildState) (r : ResolveResult)
    (hres : env.resolver name (url2path parentName) = some r) :
    ((findPackage env name parentName st).1 = .error .internalModule ↔ r.pathName = name) ∧
    (r.pathName = name →
      (findPackage env name parentName st).2.repoTbl = st.repoTbl ∧
      (findPackage env name parentName st).2.fixTbl = st.fixTbl) := by
  unfold findPackage
  rw [hres]
  by_cases h : r.pathName = name <;> simp [h]

/-- C5 witness: a session whose resolver reports the platform built-in
`fs` as the bare name itself. -/
theorem findPackage_internal_module_witness :
    builtinEnv.resolver "fs" (url2path "/base/src/app.js") = some ⟨"fs", none⟩ ∧
    ((findPackage builtinEnv "fs" "/base/src/app.js" initialState).1 =
        .error .internalModule ↔ ("fs" : String) = "fs") ∧
    (("fs" : String) = "fs" →
      (findPackage builtinEnv "fs" "/base/src/app.js" initialState).2.repoTbl =
        initialState.repoTbl ∧
      (findPackage builtinEnv "fs" "/base/src/app.js" initialState).2.fixTbl =
        initialState.fixTbl) :=
  ⟨by decide,
   findPackage_internal_module builtinEnv "fs" "/base/src/app.js" initialState
     ⟨"fs", none⟩ (by decide)⟩

/-- C4 counterexample: on the sub-module request `lodash/map` the
declaring manifest name (`lodash`) differs from the requested name, and
the recorded `rootPath` is the resolved file's relative path
`node_modules/lodash/map.js`, not the package root directory's relative
path `node_modules/lodash` the claim requires in every case. -/
theorem findPackage_rootPath_cex :
    (findPackage subModuleEnv "lodash/map" "/base/src/app.js" initialState).2.repoTbl =
      [("node_modules",
        [("lodash/map", { entryPath := none, rootPath := "node_modules/lodash/map.js" })])] ∧
    path2url (pathRelative "/base" "/base/node_modules/lodash") = "node_modules/lodash" ∧
    ("node_modules/lodash/map.js" : String) ≠ "node_modules/lodash" := by
  refine ⟨by decide, by decide, by decide⟩

/-- C4 (amended).  On every successful resolution, `findPackage` records
`mkPackageSpec` under the requested name in the repository table and
returns the resolved path relative to the base directory, URL-encoded;
the spec has an `entryPath` (the resolved file relative to the package
root) exactly when the declaring manifest name equals the requested
name, and then its `rootPath` is the package root directory relative to
the base directory; otherwise `rootPath` holds the resolved file's path
relative to the base directory.  All paths URL-encoded. -/
theorem findPackage_recorded_spec_fields (env : Env) (name parentName : String)
    (st : BuildState) (r : ResolveResult)
    (hres : env.resolver name (url2path parentName) = some r)
    (hneq : r.pathName ≠ name) :
    (findPackage env name parentName st =
      (.ok (path2url (pathRelative env.basePath r.pathName)),
       { st with
         resolveCalls := st.resolveCalls + 1,
         repoTbl :=
           jsSet st.repoTbl (repoGroupKey (mkPackageSpec env.basePath name r).rootPath)
             (jsSet ((lookupStr st.repoTbl
                 (repoGroupKey (mkPackageSpec env.basePath name r).rootPath)).getD [])
               name (mkPackageSpec env.basePath name r)) })) ∧
    ((mkPackageSpec env.basePath name r).entryPath.isSome = true ↔
       Option.map Prod.fst r.pkgInfo = some name) ∧
    (∀ rp, r.pkgInfo = some (name, rp) →
       mkPackageSpec env.basePath name r =
         { entryPath := some (path2url (pathRelative rp r.pathName)),
           rootPath := path2url (pathRelative env.basePath rp) }) ∧
    (Option.map Prod.fst r.pkgInfo ≠ some name →
       mkPackageSpec env.basePath name r =
         { entryPath := none, rootPath := path2url (pathRelative env.basePath r.pathName) }) := by
  refine ⟨?_, ?_, ?_, ?_⟩
  · unfold findPackage
    rw [hres]
    simp [hneq]
  · cases hpi : r.pkgInfo with
    | none => simp [mkPackageSpec, hpi]
    | some pr =>
      obtain ⟨rn, rp⟩ := pr
      by_cases hrn : rn = name <;> simp [mkPackageSpec, hpi, hrn]
  · intro rp hpi
    simp [mkPackageSpec, hpi]
  · intro hpi
    cases hpi2 : r.pkgInfo with
    | none => simp [mkPackageSpec, hpi2]
    | some pr =>
      obtain ⟨rn, rp⟩ := pr
      rw [hpi2] at hpi
      have hrn : ¬rn = name := fun he => hpi (by simp [he])
      simp [mkPackageSpec, hpi2, hrn]

/-- C4 witness: the entry-branch instance, resolving `lodash` from
`/base/src/app.js` in `pkgEnv`, discharging the success hypotheses. -/
theorem findPackage_recorded_spec_fields_witness :
    pkgEnv.resolver "lodash" (url2path "/base/src/app.js") =
      some ⟨"/base/node_modules/lodash/index.js", some ("lodash", "/base/node_modules/lodash")⟩ ∧
    (findPackage pkgEnv "lodash" "/base/src/app.js" initialState =
      (.ok (path2url (pathRelative pkgEnv.basePath "/base/node_modules/lodash/index.js")),
       { initialState with
         resolveCalls := initialState.resolveCalls + 1,
         repoTbl :=
           jsSet initialState.repoTbl
             (repoGroupKey (mkPackageSpec pkgEnv.basePath "lodash"
                 ⟨"/base/node_modules/lodash/index.js",
                  some ("lodash", "/base/node_modules/lodash")⟩).rootPath)
             (jsSet ((lookupStr initialState.repoTbl
                 (repoGroupKey (mkPackageSpec pkgEnv.basePath "lodash"
                     ⟨"/base/node_modules/lodash/index.js",
                      some ("lodash", "/base/node_modules/lodash")⟩).rootPath)).getD [])
               "lodash"
               (mkPackageSpec pkgEnv.basePath "lodash"
                 ⟨"/base/node_modules/lodash/index.js",
                  some ("lodash", "/base/node_modules/lodash")⟩)) })) ∧
    ((mkPackageSpec pkgEnv.basePath "lodash"
        ⟨"/base/node_modules/lodash/index.js",
         some ("lodash", "/base/node_modules/lodash")⟩).entryPath.isSome = true ↔
       Option.map Prod.fst (some (("lodash" : String), ("/base/node_modules/lodash" : String))) =
         some "lodash") := by
  have h := findPackage_recorded_spec_fields pkgEnv "lodash" "/base/src/app.js" initialState
    ⟨"/base/node_modules/lodash/index.js", some ("lodash", "/base/node_modules/lodash")⟩
    (by decide) (by decide)
  exact ⟨by decide, h.1, h.2.1⟩

/-- Component scan behind `repoGroupKey`: the first (case-insensitive)
`node_modules` component that is followed by at least one more component
is where the truncation happens. -/
theorem findNodeModules_first (comps : List String) (c : String) (rest : List String)
    (hc : isNodeModulesDir c = true) (hrest : rest ≠ [])
    (hcomps : ∀ x ∈ comps, isNodeModulesDir x = false) :
    findNodeModules (comps ++ c :: rest) = some (comps ++ [c]) := by
  induction comps with
  | nil =>
    simp [findNodeModules, hc, hrest]
  | cons hd tl ih =>
    have hhd : isNodeModulesDir hd = false := hcomps hd (by simp)
    have ih' := ih (fun x hx => hcomps x (by simp [hx]))
    simp only [List.cons_append, findNodeModules, hhd, Bool.false_eq_true, false_and, if_false]
    show Option.map (fun x => hd :: x) (findNodeModules (tl ++ c :: rest)) =
      some (hd :: (tl ++ [c]))
    rw [ih']
    rfl

/-- C8.  On every successful resolution, the package is stored under the
grouping key `repoGroupKey` of its `rootPath`; that key truncates the
path at the first `node_modules` path component from the left (so nested
dependency containers collapse to the outermost one), key distinctness
is preserved, and the emitter's `meta:` section holds one shim directive
per repository key, not one per package. -/
theorem findPackage_repo_grouping (env : Env) (name parentName : String)
    (st : BuildState) (r : ResolveResult)
    (hres : env.resolver name (url2path parentName) = some r)
    (hneq : r.pathName ≠ name) :
    ((findPackage env name parentName st).2.repoTbl =
       jsSet st.repoTbl (repoGroupKey (mkPackageSpec env.basePath name r).rootPath)
         (jsSet ((lookupStr st.repoTbl
             (repoGroupKey (mkPackageSpec env.basePath name r).rootPath)).getD [])
           name (mkPackageSpec env.basePath name r))) ∧
    (∀ s comps c rest, splitSlash s = comps ++ c :: rest →
       isNodeModulesDir c = true → rest ≠ [] →
       (∀ x ∈ comps, isNodeModulesDir x = false) →
       repoGroupKey s = joinSlash (comps ++ [c])) ∧
    (∀ s₁ s₂ comps c rest₁ rest₂,
       splitSlash s₁ = comps ++ c :: rest₁ → splitSlash s₂ = comps ++ c :: rest₂ →
       isNodeModulesDir c = true → rest₁ ≠ [] → rest₂ ≠ [] →
       (∀ x ∈ comps, isNodeModulesDir x = false) →
       repoGroupKey s₁ = repoGroupKey s₂) ∧
    ((st.repoTbl.map Prod.fst).Nodup →
       (((findPackage env name parentName st).2.repoTbl.map Prod.fst).Nodup)) ∧
    (∀ repoTbl shimPath, (metaLines repoTbl shimPath).length = repoTbl.length) := by
  have hrec : (findPackage env name parentName st).2.repoTbl =
      jsSet st.repoTbl (repoGroupKey (mkPackageSpec env.basePath name r).rootPath)
        (jsSet ((lookupStr st.repoTbl
            (repoGroupKey (mkPackageSpec env.basePath name r).rootPath)).getD [])
          name (mkPackageSpec env.basePath name r)) := by
    unfold findPackage
    rw [hres]
    simp [hneq]
  refine ⟨hrec, ?_, ?_, ?_, ?_⟩
  · intro s comps c rest hsplit hc hrest hcomps
    unfold repoGroupKey
    rw [hsplit, findNodeModules_first comps c rest hc hrest hcomps]
  · intro s₁ s₂ comps c rest₁ rest₂ h₁ h₂ hc hr₁ hr₂ hcomps
    unfold repoGroupKey
    rw [h₁, h₂, findNodeModules_first comps c rest₁ hc hr₁ hcomps,
      findNodeModules_first comps c rest₂ hc hr₂ hcomps]
  · intro hnd
    rw [hrec]
    exact jsSet_keys_nodup _ _ _ hnd
  · intro repoTbl shimPath
    unfold metaLines
    rw [List.length_map, (sortStrings_perm _).length_eq, List.length_map]

/-- C8 witness: recording `lodash/map` in `subModuleEnv` lands under the
collapsed key `node_modules`, and the truncation facts instantiate on
the nested path `node_modules/a/node_modules/b` against
`node_modules/c`. -/
theorem findPackage_repo_grouping_witness :
    ((findPackage subModuleEnv "lodash/map" "/base/src/app.js" initialState).2.repoTbl =
       jsSet initialState.repoTbl
         (repoGroupKey (mkPackageSpec subModuleEnv.basePath "lodash/map"
             ⟨"/base/node_modules/lodash/map.js",
              some ("lodash", "/base/node_modules/lodash")⟩).rootPath)
         (jsSet ((lookupStr initialState.repoTbl
             (repoGroupKey (mkPackageSpec subModuleEnv.basePath "lodash/map"
                 ⟨"/base/node_modules/lodash/map.js",
                  some ("lodash", "/base/node_modules/lodash")⟩).rootPath)).getD [])
           "lodash/map"
           (mkPackageSpec subModuleEnv.basePath "lodash/map"
             ⟨"/base/node_modules/lodash/map.js",
              some ("lodash", "/base/node_modules/lodash")⟩))) ∧
    repoGroupKey "node_modules/a/node_modules/b" = repoGroupKey "node_modules/c" ∧
    repoGroupKey "node_modules/a/node_modules/b" = "node_modules" := by
  have h := findPackage_repo_grouping subModuleEnv "lodash/map" "/base/src/app.js" initialState
    ⟨"/base/node_modules/lodash/map.js", some ("lodash", "/base/node_modules/lodash")⟩
    (by decide) (by decide)
  refine ⟨h.1, ?_, by decide⟩
  exact h.2.2.1 "node_modules/a/node_modules/b" "node_modules/c" [] "node_modules"
    ["a", "node_modules", "b"] ["c"] (by decide) (by decide) (by decide)
    (by decide) (by decide) (by decide)

/-! ## Claim theorems: normalization interceptor (C1, C2) -/

/-- Session with no aliases where the candidate `/base/lib.js` is
missing while its directory index `/base/lib/index.js` exists. -/
def idxEnv : Env where
  basePath := "/base"
  map := []
  fs := fun p => p == "/base/lib/index.js"
  oldNormalize := fun _ _ _ => "/base/lib.js"
  resolver := fun _ _ => none

/-- C1 counterexample: in `aliasEnv` the specifier `a` has a candidate
path `/base/a.js` that does not exist while its directory index
`/base/a/index.js` does exist, yet because the alias map redirects `a`
to `b` — a check `newNormalize` performs before the index probe — the
interceptor returns `b`'s normalization `/base/b.js`, which is not the
index path, and records no FixTable entry. -/
theorem interceptor_index_fallback_cex :
    aliasEnv.fs (url2path (aliasEnv.oldNormalize "a" "/base/m.js" "/base/m.js")) = false ∧
    aliasEnv.fs (url2path (replaceJsSuffix
      (aliasEnv.oldNormalize "a" "/base/m.js" "/base/m.js"))) = true ∧
    normalizeChain aliasEnv 2 "a" "/base/m.js" "/base/m.js" initialState =
      (.ok "/base/b.js", initialState) ∧
    ("/base/b.js" : String) ≠
      replaceJsSuffix (aliasEnv.oldNormalize "a" "/base/m.js" "/base/m.js") ∧
    initialState.fixTbl = [] :=
  ⟨by decide, by decide, by rfl, by decide, rfl⟩

/-- C1 (amended).  For a specifier that the loader's static alias map
does not redirect, whose candidate path does not exist but whose
directory-index path does, the interceptor returns the index path and
the only state change is one FixTable binding from the `./`-prefixed
relative candidate path to the `./`-prefixed relative index path; in
particular package resolution is never attempted. -/
theorem interceptor_index_fallback (env : Env) (fuel : Nat)
    (name parentName parentAddress : String) (st : BuildState)
    (halias : aliasRedirects env.map name = false)
    (hdirect : env.fs (url2path (env.oldNormalize name parentName parentAddress)) = false)
    (hindex : env.fs (url2path (replaceJsSuffix
      (env.oldNormalize name parentName parentAddress))) = true) :
    normalizeChain env (fuel + 1) name parentName parentAddress st =
      (.ok (replaceJsSuffix (env.oldNormalize name parentName parentAddress)),
       { st with fixTbl := (jsSet st.fixTbl
           ("./" ++ pathRelative env.basePath
             (url2path (env.oldNormalize name parentName parentAddress)))
           ("./" ++ pathRelative env.basePath
             (url2path (replaceJsSuffix (env.oldNormalize name parentName parentAddress))))) }) ∧
    (normalizeChain env (fuel + 1) name parentName parentAddress st).2.resolveCalls =
      st.resolveCalls := by
  have hmain : normalizeChain env (fuel + 1) name parentName parentAddress st =
      (.ok (replaceJsSuffix (env.oldNormalize name parentName parentAddress)),
       { st with fixTbl := (jsSet st.fixTbl
           ("./" ++ pathRelative env.basePath
             (url2path (env.oldNormalize name parentName parentAddress)))
           ("./" ++ pathRelative env.basePath
             (url2path (replaceJsSuffix (env.oldNormalize name parentName parentAddress))))) }) := by
    show (if env.fs (url2path (env.oldNormalize name parentName parentAddress)) then _
          else newNormalize env (normalizeChain env fuel) name parentName parentAddress
            (env.oldNormalize name parentName parentAddress) st) = _
    rw [hdirect]
    simp only [Bool.false_eq_true, if_false]
    rw [newNormalize_no_alias env _ _ _ _ _ _ halias]
    unfold newNormalizeFallback
    simp only [hindex, if_true]
  exact ⟨hmain, by rw [hmain]⟩

/-- C1 witness: in `idxEnv` the candidate is missing, the index exists,
the alias map is empty, and the interceptor returns the index path while
recording the single FixTable binding. -/
theorem interceptor_index_fallback_witness :
    normalizeChain idxEnv 1 "./lib.js" "/base/m.js" "/base/m.js" initialState =
      (.ok (replaceJsSuffix (idxEnv.oldNormalize "./lib.js" "/base/m.js" "/base/m.js")),
       { initialState with fixTbl := (jsSet initialState.fixTbl
           ("./" ++ pathRelative idxEnv.basePath
             (url2path (idxEnv.oldNormalize "./lib.js" "/base/m.js" "/base/m.js")))
           ("./" ++ pathRelative idxEnv.basePath
             (url2path (replaceJsSuffix
               (idxEnv.oldNormalize "./lib.js" "/base/m.js" "/base/m.js"))))) }) ∧
    (normalizeChain idxEnv 1 "./lib.js" "/base/m.js" "/base/m.js" initialState).2.resolveCalls =
      initialState.resolveCalls :=
  interceptor_index_fallback idxEnv 0 "./lib.js" "/base/m.js" "/base/m.js" initialState
    (by decide) (by decide) (by decide)

/-- C2.  For a specifier the alias map does not redirect, when neither
the candidate path nor its directory index exists, the interceptor's
entire effect is that of one `findPackage` call (so the external
resolver runs exactly once); it returns the resolved path on success and
the original candidate path unchanged on any resolution error, never
propagating the error. -/
theorem interceptor_package_fallback_on_double_miss (env : Env) (fuel : Nat)
    (name parentName parentAddress : String) (st : BuildState)
    (halias : aliasRedirects env.map name = false)
    (hdirect : env.fs (url2path (env.oldNormalize name parentName parentAddress)) = false)
    (hindex : env.fs (url2path (replaceJsSuffix
      (env.oldNormalize name parentName parentAddress))) = false) :
    (normalizeChain env (fuel + 1) name parentName parentAddress st).2 =
      (findPackage env name parentName st).2 ∧
    (normalizeChain env (fuel + 1) name parentName parentAddress st).2.resolveCalls =
      st.resolveCalls + 1 ∧
    (∀ p, (findPackage env name parentName st).1 = .ok p →
      (normalizeChain env (fuel + 1) name parentName parentAddress st).1 = .ok p) ∧
    (∀ e, (findPackage env name parentName st).1 = .error e →
      (normalizeChain env (fuel + 1) name parentName parentAddress st).1 =
        .ok (env.oldNormalize name parentName parentAddress)) := by
  have hred : normalizeChain env (fuel + 1) name parentName parentAddress st =
      newNormalizeFallback env name parentName
        (env.oldNormalize name parentName parentAddress) st := by
    show (if env.fs (url2path (env.oldNormalize name parentName parentAddress)) then _
          else newNormalize env (normalizeChain env fuel) name parentName parentAddress
            (env.oldNormalize name parentName parentAddress) st) = _
    rw [hdirect]
    simp only [Bool.false_eq_true, if_false]
    exact newNormalize_no_alias env _ _ _ _ _ _ halias
  rw [hred]
  unfold newNormalizeFallback
  simp only [hindex, Bool.false_eq_true, if_false]
  rcases hf : findPackage env name parentName st with ⟨res, st'⟩
  have hcalls : st'.resolveCalls = st.resolveCalls + 1 := by
    have h := findPackage_resolveCalls env name parentName st
    rw [hf] at h
    exact h
  cases res with
  | ok p =>
    refine ⟨rfl, hcalls, fun q hq => ?_, fun e he => ?_⟩
    · simpa using hq
    · simp at he
  | error e =>
    refine ⟨rfl, hcalls, fun q hq => ?_, fun e' _ => rfl⟩
    · simp at hq

/-- C2 witness: the double miss on `lodash` in `pkgEnv`, where the
resolver succeeds; all three hypotheses discharge by evaluation. -/
theorem interceptor_package_fallback_witness :
    (normalizeChain pkgEnv 1 "lodash" "/base/src/app.js" "/base/src/app.js" initialState).2 =
      (findPackage pkgEnv "lodash" "/base/src/app.js" initialState).2 ∧
    (normalizeChain pkgEnv 1 "lodash" "/base/src/app.js" "/base/src/app.js"
        initialState).2.resolveCalls = initialState.resolveCalls + 1 ∧
    (∀ p, (findPackage pkgEnv "lodash" "/base/src/app.js" initialState).1 = .ok p →
      (normalizeChain pkgEnv 1 "lodash" "/base/src/app.js" "/base/src/app.js"
        initialState).1 = .ok p) ∧
    (∀ e, (findPackage pkgEnv "lodash" "/base/src/app.js" initialState).1 = .error e →
      (normalizeChain pkgEnv 1 "lodash" "/base/src/app.js" "/base/src/app.js"
        initialState).1 =
          .ok (pkgEnv.oldNormalize "lodash" "/base/src/app.js" "/base/src/app.js")) :=
  interceptor_package_fallback_on_double_miss pkgEnv 0 "lodash" "/base/src/app.js"
    "/base/src/app.js" initialState (by decide) (by decide) (by decide)

/-! ## Dependency tree reporter (`makeTree`)

The source's `Branch` is an array holding a file name and the child
branches; `report` creates a leaf, records it in `found`, pushes it onto
the parent branch and enqueues the name.  The model keeps the arena
explicitly: `TreeState.found` lists branch labels in creation order and
`TreeState.edges` records each attachment as a `(parent, child)` pair,
`none` standing for the synthetic unnamed root branch.  A JS table read
of a missing `depMap` entry yields `undefined`, which subsequent table
reads coerce to the key string `"undefined"`; the model uses that string
directly. -/

/-- Per-module diagnostics of the bundler (`BuildItem`): the import
specifier list and the specifier-to-module-name map. -/
structure BuildItem where
  deps : List String
  depMap : List (String × String)
deriving DecidableEq, Repr

/-- Bundler result object (`BuildResult`), restricted to the fields
`makeTree` reads: the per-module tree and the optional entry-point list
(`none` models a falsy `result.entryPoints`; an empty array is truthy in
JS and stays `some []`). -/
structure BuildResultM where
  tree : List (String × BuildItem)
  entryPoints : Option (List String)
deriving DecidableEq, Repr

/-- Dependency targets of one module: `item.depMap[dep]` for each `dep`
of `item.deps`, in order. -/
def depTargets (item : BuildItem) : List String :=
  item.deps.map (fun d => (lookupStr item.depMap d).getD "undefined")

/-- Every dependency target of every module of the tree, in tree order —
the names `importedTbl` marks during entry-point inference. -/
def allTargets (tree : List (String × BuildItem)) : List String :=
  (tree.map (fun e => depTargets e.2)).flatten

/-- Entry-point inference when the bundler reports none: the modules of
the tree that are nobody's dependency target, in tree order. -/
def inferEntryPoints (tree : List (String × BuildItem)) : List String :=
  (tree.map Prod.fst).filter (fun n => decide (n ∉ allTargets tree))

/-- The entry points `makeTree` starts from: the reported list when
truthy, otherwise the inferred one. -/
def entryPointsOf (r : BuildResultM) : List String :=
  match r.entryPoints with
  | some e => e
  | none => inferEntryPoints r.tree

/-- Traversal state of `makeTree`: the FIFO `queue`, the labels of
created branches in creation order (the keys of the `found` table), and
the branch attachments. -/
structure TreeState where
  queue : List String
  found : List String
  edges : List (Option String × String)
deriving DecidableEq, Repr

/-- Model of `report(name, branch)`: if no branch for `name` exists yet,
create a leaf, attach it under `parent` and enqueue `name`. -/
def report (parent : Option String) (name : String) (st : TreeState) : TreeState :=
  if name ∈ st.found then st
  else { queue := st.queue ++ [name], found := st.found ++ [name],
         edges := st.edges ++ [(parent, name)] }

/-- The `for` loop reporting every dependency target under one parent. -/
def reportAll (parent : Option String) (names : List String) (st : TreeState) : TreeState :=
  names.foldl (fun s n => report parent n s) st

/-- Failures of the traversal model: the TypeError the dequeue loop
raises reading `.deps` of `result.tree[name]` for a `name` missing from
the tree, or exhaustion of the loop fuel (which a sufficient bound rules
out). -/
inductive TreeErr where
  | missingModule (name : String)
  | outOfFuel
deriving DecidableEq, Repr

/-- Model of the `while(queue.length)` loop of `makeTree`: dequeue a
name, look it up in the tree — faulting when absent — and report each of
its dependency targets under its branch. -/
def makeTreeLoop (tree : List (String × BuildItem)) :
    Nat → TreeState → Except TreeErr TreeState
  | 0, _ => .error .outOfFuel
  | fuel + 1, st =>
    match st.queue with
    | [] => .ok st
    | name :: rest =>
      match lookupStr tree name with
      | none => .error (.missingModule name)
      | some item =>
        makeTreeLoop tree fuel (reportAll (some name) (depTargets item) { st with queue := rest })

/-- The state before any report: root branch only. -/
def initTreeState : TreeState := { queue := [], found := [], edges := [] }

/-- Fuel sufficient for the whole traversal: every loop iteration
dequeues a name that was enqueued exactly once, and at most one name per
distinct entry point or dependency target is ever enqueued. -/
def makeTreeFuel (r : BuildResultM) : Nat :=
  ((entryPointsOf r ++ allTargets r.tree).dedup).length + 1

/-- Model of `makeTree(result)`: report the entry points under the root,
then run the dequeue loop. -/
def makeTree (r : BuildResultM) : Except TreeErr TreeState :=
  makeTreeLoop r.tree (makeTreeFuel r) (reportAll none (entryPointsOf r) initTreeState)

/-- Depth table of the branch arena: scanning the attachments in
creation order, a child of the root gets depth 1 and any other child one
more than its parent's recorded depth. -/
def depthTblAux (acc : List (String × Nat)) : List (Option String × String) → List (String × Nat)
  | [] => acc
  | e :: rest =>
    let d := match e.1 with
      | none => 1
      | some q => (lookupStr acc q).getD 0 + 1
    depthTblAux (acc ++ [(e.2, d)]) rest

/-- Depth (hop count from the synthetic root) of the branch labelled `m`
in the produced tree, `none` when no such branch exists. -/
def depthOf (edges : List (Option String × String)) (m : String) : Option Nat :=
  lookupStr (depthTblAux [] edges) m

/-- Total version of `depthOf` used in ordering statements. -/
def depD (edges : List (Option String × String)) (m : String) : Nat :=
  (depthOf edges m).getD 0

/-- Import-chain reachability: an entry point is reachable in one hop
from the synthetic root, and every dependency target of a reachable tree
module is reachable in one more hop. -/
inductive Reaches (tree : List (String × BuildItem)) (entries : List String) :
    String → Nat → Prop
  | entry {m : String} : m ∈ entries → Reaches tree entries m 1
  | step {n m : String} {d : Nat} {item : BuildItem} :
      Reaches tree entries n d → lookupStr tree n = some item →
      m ∈ depTargets item → Reaches tree entries m (d + 1)

/-- A module is reachable when some hop count reaches it. -/
def Reachable (r : BuildResultM) (m : String) : Prop :=
  ∃ d, Reaches r.tree (entryPointsOf r) m d

/-- Names not yet in `found`, first occurrences only, in order — the
names a `reportAll` call adds. -/
def newFrom : List String → List String → List String
  | _, [] => []
  | found, t :: ts =>
    if t ∈ found then newFrom found ts else t :: newFrom (found ++ [t]) ts

/-! ## Association list lemmas -/

theorem lookupStr_none_iff {α : Type} (m : List (String × α)) (k : String) :
    lookupStr m k = none ↔ k ∉ m.map Prod.fst := by
  induction m with
  | nil => simp [lookupStr]
  | cons hd tl ih =>
    by_cases h : k = hd.1 <;> simp [lookupStr, h, ih]

theorem lookupStr_append {α : Type} (l₁ l₂ : List (String × α)) (k : String) :
    lookupStr (l₁ ++ l₂) k = (lookupStr l₁ k).or (lookupStr l₂ k) := by
  induction l₁ with
  | nil => simp [lookupStr]
  | cons hd tl ih =>
    by_cases h : k = hd.1 <;> simp [lookupStr, h, ih]

theorem lookupStr_mem {α : Type} {m : List (String × α)} {k : String} {v : α}
    (h : lookupStr m k = some v) : (k, v) ∈ m := by
  induction m with
  | nil => simp [lookupStr] at h
  | cons hd tl ih =>
    by_cases hk : k = hd.1
    · rw [lookupStr, if_pos hk] at h
      have hv : v = hd.2 := (Option.some.inj h).symm
      subst hv
      subst hk
      exact List.mem_cons.mpr (Or.inl rfl)
    · rw [lookupStr, if_neg hk] at h
      exact List.mem_cons_of_mem _ (ih h)

theorem lookupStr_of_mem_nodup {α : Type} {m : List (String × α)} {k : String} {v : α}
    (hmem : (k, v) ∈ m) (hnd : (m.map Prod.fst).Nodup) : lookupStr m k = some v := by
  induction m with
  | nil => simp at hmem
  | cons hd tl ih =>
    simp only [List.map_cons, List.nodup_cons] at hnd
    rcases List.mem_cons.mp hmem with h | h
    · subst h
      simp [lookupStr]
    · have hk : k ≠ hd.1 := by
        intro he
        exact hnd.1 (he ▸ (List.mem_map.mpr ⟨(k, v), h, rfl⟩))
      rw [lookupStr, if_neg hk]
      exact ih h hnd.2

/-! ## Report and traversal characterisation -/

theorem newFrom_mem : ∀ (ts found : List String) (x : String),
    x ∈ newFrom found ts → x ∈ ts ∧ x ∉ found
  | [], _, x => by simp [newFrom]
  | t :: ts, found, x => by
    by_cases h : t ∈ found
    · rw [newFrom, if_pos h]
      intro hx
      have := newFrom_mem ts found x hx
      exact ⟨List.mem_cons_of_mem _ this.1, this.2⟩
    · rw [newFrom, if_neg h]
      intro hx
      rcases List.mem_cons.mp hx with he | hx'
      · exact ⟨he ▸ List.mem_cons_self _ _, he ▸ h⟩
      · have := newFrom_mem ts (found ++ [t]) x hx'
        refine ⟨List.mem_cons_of_mem _ this.1, fun hf => this.2 (by simp [hf])⟩

theorem newFrom_covers : ∀ (ts found : List String) (x : String),
    x ∈ ts → x ∈ found ∨ x ∈ newFrom found ts
  | [], _, x => by simp
  | t :: ts, found, x => by
    intro hx
    by_cases h : t ∈ found
    · rw [newFrom, if_pos h]
      rcases List.mem_cons.mp hx with he | hx'
      · exact Or.inl (he ▸ h)
      · exact newFrom_covers ts found x hx'
    · rw [newFrom, if_neg h]
      rcases List.mem_cons.mp hx with he | hx'
      · exact Or.inr (he ▸ List.mem_cons_self _ _)
      · rcases newFrom_covers ts (found ++ [t]) x hx' with hf | hn
        · rcases List.mem_append.mp hf with hf | hf
          · exact Or.inl hf
          · exact Or.inr (by
              have hxt : x = t := by simpa using hf
              exact hxt ▸ List.mem_cons_self _ _)
        · exact Or.inr (List.mem_cons_of_mem _ hn)

theorem newFrom_nodup_append : ∀ (ts found : List String), found.Nodup →
    (found ++ newFrom found ts).Nodup
  | [], found => by simp [newFrom]
  | t :: ts, found => by
    intro hnd
    by_cases h : t ∈ found
    · rw [newFrom, if_pos h]
      exact newFrom_nodup_append ts found hnd
    · rw [newFrom, if_neg h]
      have hnd' : (found ++ [t]).Nodup := by
        rw [List.nodup_append]
        exact ⟨hnd, List.nodup_singleton t, by simpa using h⟩
      have := newFrom_nodup_append ts (found ++ [t]) hnd'
      simpa using this

theorem reportAll_spec (p : Option String) : ∀ (ts : List String) (st : TreeState),
    reportAll p ts st =
      { queue := st.queue ++ newFrom st.found ts,
        found := st.found ++ newFrom st.found ts,
        edges := st.edges ++ (newFrom st.found ts).map (fun m => (p, m)) }
  | [], st => by simp [reportAll, newFrom]
  | t :: ts, st => by
    show reportAll p ts (report p t st) = _
    by_cases h : t ∈ st.found
    · rw [newFrom, if_pos h]
      rw [show report p t st = st from if_pos h]
      exact reportAll_spec p ts st
    · rw [newFrom, if_neg h]
      rw [show report p t st =
        { queue := st.queue ++ [t], found := st.found ++ [t],
          edges := st.edges ++ [(p, t)] } from if_neg h]
      rw [reportAll_spec p ts _]
      simp

/-! ## Depth table lemmas -/

theorem depthTblAux_append (acc : List (String × Nat)) (e₁ e₂ : List (Option String × String)) :
    depthTblAux acc (e₁ ++ e₂) = depthTblAux (depthTblAux acc e₁) e₂ := by
  induction e₁ generalizing acc with
  | nil => rfl
  | cons e rest ih =>
    show depthTblAux _ (rest ++ e₂) = _
    exact ih _

theorem depthTblAux_keys (acc : List (String × Nat)) (es : List (Option String × String)) :
    (depthTblAux acc es).map Prod.fst = acc.map Prod.fst ++ es.map Prod.snd := by
  induction es generalizing acc with
  | nil => simp [depthTblAux]
  | cons e rest ih =>
    simp only [depthTblAux, ih, List.map_append, List.map_cons]
    simp

theorem depthOf_isSome_iff (es : List (Option String × String)) (m : String) :
    (depthOf es m).isSome = true ↔ m ∈ es.map Prod.snd := by
  unfold depthOf
  constructor
  · intro h
    by_contra hm
    have hnone : lookupStr (depthTblAux [] es) m = none :=
      (lookupStr_none_iff _ _).mpr
        (by rw [depthTblAux_keys]; simp only [List.map_nil, List.nil_append]; exact hm)
    rw [hnone] at h
    simp at h
  · intro hm
    cases hl : lookupStr (depthTblAux [] es) m with
    | some d => rfl
    | none =>
      have h2 := (lookupStr_none_iff _ _).mp hl
      rw [depthTblAux_keys] at h2
      simp only [List.map_nil, List.nil_append] at h2
      exact absurd hm h2

theorem depthOf_eq_some_depD (es : List (Option String × String)) (m : String)
    (h : m ∈ es.map Prod.snd) : depthOf es m = some (depD es m) := by
  have := (depthOf_isSome_iff es m).mpr h
  cases hd : depthOf es m with
  | none => rw [hd] at this; simp at this
  | some d => simp [depD, hd]

theorem depthTblAux_decomp (acc : List (String × Nat)) (es : List (Option String × String)) :
    ∃ delta, depthTblAux acc es = acc ++ delta := by
  induction es generalizing acc with
  | nil => exact ⟨[], by simp [depthTblAux]⟩
  | cons e rest ih =>
    obtain ⟨delta, hd⟩ := ih (acc ++ [(e.2,
      match e.1 with
      | none => 1
      | some q => (lookupStr acc q).getD 0 + 1)])
    exact ⟨_, by rw [depthTblAux, hd, List.append_assoc]⟩

theorem depthOf_append_of_mem (es es₂ : List (Option String × String)) (m : String)
    (h : m ∈ es.map Prod.snd) : depthOf (es ++ es₂) m = depthOf es m := by
  unfold depthOf
  rw [depthTblAux_append]
  obtain ⟨delta, hdec⟩ := depthTblAux_decomp (depthTblAux [] es) es₂
  rw [hdec, lookupStr_append]
  cases hl : lookupStr (depthTblAux [] es) m with
  | some d => rfl
  | none =>
    have h2 := (lookupStr_none_iff _ _).mp hl
    rw [depthTblAux_keys] at h2
    simp only [List.map_nil, List.nil_append] at h2
    exact absurd h h2

theorem lookupStr_const_map {β : Type} (l : List String) (c : β) (m : String) (h : m ∈ l) :
    lookupStr (l.map (fun x => (x, c))) m = some c := by
  induction l with
  | nil => simp at h
  | cons t ts ih =>
    by_cases hm : m = t
    · simp [lookupStr, hm]
    · rcases List.mem_cons.mp h with he | hts
      · exact absurd he hm
      · simp only [List.map_cons, lookupStr, if_neg hm]
        exact ih hts

theorem depthTblAux_child_edges (n : String) (dn : Nat) :
    ∀ (new : List String) (acc : List (String × Nat)), lookupStr acc n = some dn →
    depthTblAux acc (new.map (fun x => (some n, x))) =
      acc ++ new.map (fun x => (x, dn + 1)) := by
  intro new
  induction new with
  | nil => intro acc _; simp [depthTblAux]
  | cons m rest ih =>
    intro acc hacc
    simp only [List.map_cons, depthTblAux, hacc, Option.getD_some]
    rw [ih (acc ++ [(m, dn + 1)]) (by rw [lookupStr_append, hacc]; rfl)]
    simp

theorem depthOf_append_new (es : List (Option String × String)) (n : String)
    (new : List String) (hn : n ∈ es.map Prod.snd) :
    ∀ m ∈ new, m ∉ es.map Prod.snd →
      depthOf (es ++ new.map (fun x => (some n, x))) m = some (depD es n + 1) := by
  intro m hm hfresh
  unfold depthOf
  rw [depthTblAux_append]
  rw [depthTblAux_child_edges n (depD es n) new (depthTblAux [] es)
    (by exact depthOf_eq_some_depD es n hn)]
  rw [lookupStr_append]
  have hnone : lookupStr (depthTblAux [] es) m = none :=
    (lookupStr_none_iff _ _).mpr (by rw [depthTblAux_keys]; simpa using hfresh)
  rw [hnone, lookupStr_const_map new (depD es n + 1) m hm]
  rfl

theorem depthTblAux_root_edges :
    ∀ (l : List String) (acc : List (String × Nat)),
    depthTblAux acc (l.map (fun x => ((none : Option String), x))) =
      acc ++ l.map (fun x => (x, 1)) := by
  intro l
  induction l with
  | nil => intro acc; simp [depthTblAux]
  | cons t ts ih =>
    intro acc
    simp only [List.map_cons, depthTblAux]
    rw [ih (acc ++ [(t, 1)])]
    simp

theorem depthOf_root_edges (l : List String) (m : String) (h : m ∈ l) :
    depthOf (l.map (fun x => ((none : Option String), x))) m = some 1 := by
  unfold depthOf
  rw [depthTblAux_root_edges l []]
  simpa using lookupStr_const_map l 1 m h

/-! ## Traversal invariant

`done` is the list of already dequeued names, in dequeue order; the
invariant ties the queue, the branch arena and the recorded depths
together.  `parentEdge` states the first-discovery property: a branch's
parent is the earliest-processed module importing it; `queueMono` and
`frontier` are the breadth-first ordering facts giving depth minimality. -/

structure TreeInv (tree : List (String × BuildItem)) (entries : List String)
    (done : List String) (st : TreeState) : Prop where
  split : st.found = done ++ st.queue
  nodup : st.found.Nodup
  children : st.edges.map Prod.snd = st.found
  rootEdge : ∀ e ∈ st.edges, e.1 = none → e.2 ∈ entries
  parentEdge : ∀ e ∈ st.edges, ∀ p, e.1 = some p →
    p ∈ done ∧ e.2 ∉ entries ∧
    (∃ item, lookupStr tree p = some item ∧ e.2 ∈ depTargets item) ∧
    (∀ q ∈ done, (∃ it, lookupStr tree q = some it ∧ e.2 ∈ depTargets it) →
       st.found.indexOf p ≤ st.found.indexOf q)
  entriesFound : ∀ m ∈ entries, m ∈ st.found ∧ depthOf st.edges m = some 1
  soundDepth : ∀ m ∈ st.found, Reaches tree entries m (depD st.edges m)
  doneClosed : ∀ n ∈ done, ∃ item, lookupStr tree n = some item ∧
    ∀ m ∈ depTargets item, m ∈ st.found ∧ depD st.edges m ≤ depD st.edges n + 1
  queueMono : st.queue.Pairwise (fun a b => depD st.edges a ≤ depD st.edges b)
  frontier : ∀ h, st.queue.head? = some h →
    ∀ m ∈ st.found, depD st.edges m ≤ depD st.edges h + 1
  foundUniv : ∀ m ∈ st.found, m ∈ entries ++ allTargets tree

/-- The invariant holds after the initial entry-point reports. -/
theorem treeInv_init (tree : List (String × BuildItem)) (entries : List String) :
    TreeInv tree entries [] (reportAll none entries initTreeState) := by
  rw [reportAll_spec]
  simp only [initTreeState, List.nil_append]
  have hmem : ∀ x ∈ newFrom [] entries, x ∈ entries :=
    fun x hx => (newFrom_mem entries [] x hx).1
  have hdep : ∀ m ∈ newFrom [] entries,
      depthOf ((newFrom [] entries).map (fun m => ((none : Option String), m))) m = some 1 :=
    fun m hm => depthOf_root_edges _ m hm
  refine ⟨rfl, ?_, ?_, ?_, ?_, ?_, ?_, ?_, ?_, ?_, ?_⟩
  · simpa using newFrom_nodup_append entries [] (List.nodup_nil)
  · simp
  · intro e he _
    obtain ⟨m, hm, rfl⟩ := List.mem_map.mp he
    exact hmem m hm
  · intro e he p hp
    obtain ⟨m, hm, rfl⟩ := List.mem_map.mp he
    simp at hp
  · intro m hm
    have hmn : m ∈ newFrom [] entries := by
      rcases newFrom_covers entries [] m hm with h | h
      · simp at h
      · exact h
    exact ⟨hmn, hdep m hmn⟩
  · intro m hm
    have h1 : depD ((newFrom [] entries).map (fun m => ((none : Option String), m))) m = 1 := by
      simp [depD, hdep m hm]
    rw [h1]
    exact Reaches.entry (hmem m hm)
  · intro n hn
    simp at hn
  · refine List.pairwise_of_forall_mem_list ?_
    intro a ha b hb
    have h1 : depD ((newFrom [] entries).map (fun m => ((none : Option String), m))) a = 1 := by
      simp [depD, hdep a ha]
    have h2 : depD ((newFrom [] entries).map (fun m => ((none : Option String), m))) b = 1 := by
      simp [depD, hdep b hb]
    show depD _ a ≤ depD _ b
    rw [h1, h2]
  · intro h _ m hm
    have h2 : depD ((newFrom [] entries).map (fun m => ((none : Option String), m))) m = 1 := by
      simp [depD, hdep m hm]
    show depD _ m ≤ depD _ h + 1
    rw [h2]
    omega
  · intro m hm
    exact List.mem_append.mpr (Or.inl (hmem m hm))

/-- The invariant is preserved by one dequeue step of the loop. -/
theorem treeInv_step (tree : List (String × BuildItem)) (entries : List String)
    (done : List String) (st : TreeState) (n : String) (rest : List String)
    (item : BuildItem)
    (hq : st.queue = n :: rest)
    (hitem : lookupStr tree n = some item)
    (inv : TreeInv tree entries done st) :
    TreeInv tree entries (done ++ [n])
      (reportAll (some n) (depTargets item) { st with queue := rest }) := by
  rw [reportAll_spec]
  show TreeInv tree entries (done ++ [n])
    { queue := rest ++ newFrom st.found (depTargets item),
      found := st.found ++ newFrom st.found (depTargets item),
      edges := st.edges ++ (newFrom st.found (depTargets item)).map (fun m => (some n, m)) }
  set new := newFrom st.found (depTargets item) with hnewdef
  have hfn : st.found = done ++ n :: rest := by rw [inv.split, hq]
  have hnf : n ∈ st.found := by rw [hfn]; simp
  have hnchild : n ∈ st.edges.map Prod.snd := inv.children.symm ▸ hnf
  have hfresh : ∀ x ∈ new, x ∉ st.found := fun x hx => (newFrom_mem _ _ x hx).2
  have hsub : ∀ x ∈ new, x ∈ depTargets item := fun x hx => (newFrom_mem _ _ x hx).1
  have hnodup' : (st.found ++ new).Nodup := newFrom_nodup_append _ _ inv.nodup
  have hstab : ∀ m ∈ st.found,
      depthOf (st.edges ++ new.map (fun m => (some n, m))) m = depthOf st.edges m :=
    fun m hm => depthOf_append_of_mem _ _ m (inv.children.symm ▸ hm)
  have hstabD : ∀ m ∈ st.found,
      depD (st.edges ++ new.map (fun m => (some n, m))) m = depD st.edges m := by
    intro m hm
    unfold depD
    rw [hstab m hm]
  have hnewDep : ∀ m ∈ new,
      depthOf (st.edges ++ new.map (fun m => (some n, m))) m = some (depD st.edges n + 1) :=
    fun m hm => depthOf_append_new st.edges n new hnchild m hm
      (fun hc => hfresh m hm (inv.children ▸ hc))
  have hnewDepD : ∀ m ∈ new,
      depD (st.edges ++ new.map (fun m => (some n, m))) m = depD st.edges n + 1 := by
    intro m hm
    unfold depD
    rw [hnewDep m hm]
    rfl
  have hfr : ∀ m ∈ st.found, depD st.edges m ≤ depD st.edges n + 1 :=
    inv.frontier n (by rw [hq]; rfl)
  have hqm := inv.queueMono
  rw [hq, List.pairwise_cons] at hqm
  have hndone : n ∉ done := by
    have hnd := inv.nodup
    rw [hfn, List.nodup_append] at hnd
    intro hmem
    exact hnd.2.2 hmem (List.mem_cons_self n rest)
  have hidxn : st.found.indexOf n = done.length := by
    rw [hfn, List.indexOf_append_of_not_mem hndone, List.indexOf_cons_self]
    rfl
  have hidxdone : ∀ p ∈ done, st.found.indexOf p < done.length := by
    intro p hp
    rw [hfn, List.indexOf_append_of_mem hp]
    exact List.indexOf_lt_length.mpr hp
  have hidxstab : ∀ x ∈ st.found, (st.found ++ new).indexOf x = st.found.indexOf x :=
    fun x hx => List.indexOf_append_of_mem hx
  have hdonef : ∀ p ∈ done, p ∈ st.found := by
    intro p hp
    rw [hfn]
    exact List.mem_append.mpr (Or.inl hp)
  have hrestf : ∀ x ∈ rest, x ∈ st.found := by
    intro x hx
    rw [hfn]
    simp [hx]
  refine ⟨?_, hnodup', ?_, ?_, ?_, ?_, ?_, ?_, ?_, ?_, ?_⟩
  · show st.found ++ new = (done ++ [n]) ++ (rest ++ new)
    rw [hfn]
    simp
  · show (st.edges ++ new.map (fun m => (some n, m))).map Prod.snd = st.found ++ new
    simp [inv.children]
  · intro e he h0
    rcases List.mem_append.mp he with ho | hn2
    · exact inv.rootEdge e ho h0
    · obtain ⟨m, _, rfl⟩ := List.mem_map.mp hn2
      simp at h0
  · intro e he p hp
    rcases List.mem_append.mp he with ho | hn2
    · obtain ⟨hpdone, hnotE, hex, hmin⟩ := inv.parentEdge e ho p hp
      refine ⟨List.mem_append.mpr (Or.inl hpdone), hnotE, hex, ?_⟩
      intro q hqd himp
      rcases List.mem_append.mp hqd with hqdone | hqn
      · rw [hidxstab p (hdonef p hpdone), hidxstab q (hdonef q hqdone)]
        exact hmin q hqdone himp
      · have hqn : q = n := by simpa using hqn
        subst hqn
        rw [hidxstab p (hdonef p hpdone), hidxstab q hnf, hidxn]
        exact Nat.le_of_lt (hidxdone p hpdone)
    · obtain ⟨m, hm, rfl⟩ := List.mem_map.mp hn2
      have hpn : p = n := by simpa using hp.symm
      subst hpn
      refine ⟨List.mem_append.mpr (Or.inr (by simp)), ?_, ⟨item, hitem, hsub m hm⟩, ?_⟩
      · intro hmE
        exact hfresh m hm (inv.entriesFound m hmE).1
      · intro q hqd himp
        rcases List.mem_append.mp hqd with hqdone | hqn
        · obtain ⟨it1, hit1, hcl⟩ := inv.doneClosed q hqdone
          obtain ⟨it2, hit2, hm2⟩ := himp
          rw [hit1] at hit2
          obtain rfl : it1 = it2 := Option.some.inj hit2
          exact absurd (hcl m hm2).1 (hfresh m hm)
        · have hqn2 : q = p := by simpa using hqn
          subst hqn2
          exact Nat.le_refl _
  · intro m hmE
    obtain ⟨hmf, hdep1⟩ := inv.entriesFound m hmE
    exact ⟨List.mem_append.mpr (Or.inl hmf), by rw [hstab m hmf]; exact hdep1⟩
  · intro m hm
    rcases List.mem_append.mp hm with hmf | hmn
    · rw [hstabD m hmf]
      exact inv.soundDepth m hmf
    · rw [hnewDepD m hmn]
      exact Reaches.step (inv.soundDepth n hnf) hitem (hsub m hmn)
  · intro q hqd
    rcases List.mem_append.mp hqd with hqdone | hqn
    · obtain ⟨it, hit, hcl⟩ := inv.doneClosed q hqdone
      refine ⟨it, hit, ?_⟩
      intro m hmt
      obtain ⟨hmf, hb⟩ := hcl m hmt
      refine ⟨List.mem_append.mpr (Or.inl hmf), ?_⟩
      rw [hstabD m hmf, hstabD q (hdonef q hqdone)]
      exact hb
    · have hqn : q = n := by simpa using hqn
      subst hqn
      refine ⟨item, hitem, ?_⟩
      intro m hmt
      rw [hstabD q hnf]
      rcases newFrom_covers (depTargets item) st.found m hmt with hmf | hmn
      · refine ⟨List.mem_append.mpr (Or.inl hmf), ?_⟩
        rw [hstabD m hmf]
        exact hfr m hmf
      · exact ⟨List.mem_append.mpr (Or.inr hmn), by rw [hnewDepD m hmn]⟩
  · show (rest ++ new).Pairwise _
    rw [List.pairwise_append]
    refine ⟨?_, ?_, ?_⟩
    · refine hqm.2.imp_of_mem ?_
      intro a b ha hb hle
      rw [hstabD a (hrestf a ha), hstabD b (hrestf b hb)]
      exact hle
    · refine List.pairwise_of_forall_mem_list ?_
      intro a ha b hb
      rw [hnewDepD a ha, hnewDepD b hb]
    · intro a ha b hb
      rw [hstabD a (hrestf a ha), hnewDepD b hb]
      exact hfr a (hrestf a ha)
  · intro h hh m hm
    show depD (st.edges ++ new.map (fun m => (some n, m))) m ≤
      depD (st.edges ++ new.map (fun m => (some n, m))) h + 1
    have hmm : m ∈ st.found ++ new := hm
    rcases rest with _ | ⟨r₀, rest'⟩
    · have hhm : h ∈ new := by
        cases hnc : new with
        | nil =>
          rw [hnc] at hh
          simp at hh
        | cons m₀ new' =>
          rw [hnc] at hh
          have hm0 : m₀ = h := by simpa using hh
          exact List.mem_cons.mpr (Or.inl hm0.symm)
      rw [hnewDepD h hhm]
      rcases List.mem_append.mp hmm with hmf | hmn
      · rw [hstabD m hmf]
        exact Nat.le_succ_of_le (hfr m hmf)
      · rw [hnewDepD m hmn]
        omega
    · have hh0 : r₀ = h := by simpa using hh
      have hr₀ : h ∈ st.found := hrestf h (hh0 ▸ List.mem_cons_self _ _)
      have hnh : depD st.edges n ≤ depD st.edges h :=
        hqm.1 h (hh0 ▸ List.mem_cons_self _ _)
      rw [hstabD h hr₀]
      rcases List.mem_append.mp hmm with hmf | hmn
      · rw [hstabD m hmf]
        exact Nat.le_trans (hfr m hmf) (Nat.succ_le_succ hnh)
      · rw [hnewDepD m hmn]
        exact Nat.succ_le_succ hnh
  · intro m hm
    rcases List.mem_append.mp hm with hmf | hmn
    · exact inv.foundUniv m hmf
    · refine List.mem_append.mpr (Or.inr ?_)
      refine List.mem_flatten.mpr ⟨depTargets item, ?_, hsub m hmn⟩
      exact List.mem_map.mpr ⟨(n, item), lookupStr_mem hitem, rfl⟩

/-- Master lemma about the dequeue loop: from an invariant state with
sufficient fuel, it either drains the queue maintaining the invariant or
faults on a reachable name missing from the tree; it never runs out of
fuel. -/
theorem makeTreeLoop_master (tree : List (String × BuildItem)) (entries : List String) :
    ∀ (fuel : Nat) (done : List String) (st : TreeState),
    TreeInv tree entries done st →
    st.queue.length + ((entries ++ allTargets tree).dedup.length - st.found.length) + 1 ≤ fuel →
    (∃ st', makeTreeLoop tree fuel st = .ok st' ∧
       TreeInv tree entries st'.found st' ∧ st'.queue = []) ∨
    (∃ m, makeTreeLoop tree fuel st = .error (.missingModule m) ∧
       lookupStr tree m = none ∧ ∃ d, Reaches tree entries m d) := by
  intro fuel
  induction fuel with
  | zero =>
    intro done st _ hfuel
    omega
  | succ fuel ih =>
    intro done st inv hfuel
    cases hqe : st.queue with
    | nil =>
      have hdone : done = st.found := by
        have hs := inv.split
        rw [hqe] at hs
        simpa using hs.symm
      refine Or.inl ⟨st, ?_, hdone ▸ inv, hqe⟩
      simp only [makeTreeLoop, hqe]
    | cons name rest =>
      cases hlk : lookupStr tree name with
      | none =>
        refine Or.inr ⟨name, ?_, hlk, ?_⟩
        · simp only [makeTreeLoop, hqe, hlk]
        · have hnf : name ∈ st.found := by
            rw [inv.split, hqe]
            simp
          exact ⟨_, inv.soundDepth name hnf⟩
      | some item =>
        have inv' := treeInv_step tree entries done st name rest item hqe hlk inv
        have heq : makeTreeLoop tree (fuel + 1) st =
            makeTreeLoop tree fuel
              (reportAll (some name) (depTargets item) { st with queue := rest }) := by
          simp only [makeTreeLoop, hqe, hlk]
        set new := newFrom st.found (depTargets item) with hnewd
        have hspec := reportAll_spec (some name) (depTargets item) { st with queue := rest }
        have hqlen : (reportAll (some name) (depTargets item)
            { st with queue := rest }).queue = rest ++ new := by rw [hspec]
        have hflen : (reportAll (some name) (depTargets item)
            { st with queue := rest }).found = st.found ++ new := by rw [hspec]
        have hbound : st.found.length + new.length ≤
            (entries ++ allTargets tree).dedup.length := by
          have hnd : (st.found ++ new).Nodup := newFrom_nodup_append _ _ inv.nodup
          have hsp : List.Subperm (st.found ++ new) ((entries ++ allTargets tree).dedup) := by
            refine hnd.subperm ?_
            intro x hx
            refine List.mem_dedup.mpr ?_
            have hx' : x ∈ (reportAll (some name) (depTargets item)
                { st with queue := rest }).found := by rw [hflen]; exact hx
            exact inv'.foundUniv x hx'
          have := hsp.length_le
          simpa using this
        have harith : (reportAll (some name) (depTargets item)
            { st with queue := rest }).queue.length +
            ((entries ++ allTargets tree).dedup.length -
              (reportAll (some name) (depTargets item)
                { st with queue := rest }).found.length) + 1 ≤ fuel := by
          rw [hqlen, hflen]
          rw [hqe] at hfuel
          simp only [List.length_append, List.length_cons] at hfuel ⊢
          omega
        rcases ih (done ++ [name]) _ inv' harith with ⟨st', hok, hinv, hqnil⟩ |
          ⟨mm, herr, hlkm, hr⟩
        · exact Or.inl ⟨st', by rw [heq]; exact hok, hinv, hqnil⟩
        · exact Or.inr ⟨mm, by rw [heq]; exact herr, hlkm, hr⟩

/-- In a drained invariant state, breadth-first search has visited every
reachable module and its recorded depth undercuts every import chain. -/
theorem final_complete_optimal (tree : List (String × BuildItem)) (entries : List String)
    (st : TreeState) (inv : TreeInv tree entries st.found st) (hq : st.queue = []) :
    ∀ m d, Reaches tree entries m d →
      m ∈ st.found ∧ ∀ dm, depthOf st.edges m = some dm → dm ≤ d := by
  intro m d hr
  induction hr with
  | entry hm =>
    obtain ⟨hmf, hd1⟩ := inv.entriesFound _ hm
    refine ⟨hmf, fun dm hdm => ?_⟩
    rw [hd1] at hdm
    obtain rfl : (1 : Nat) = dm := Option.some.inj hdm
    exact Nat.le_refl 1
  | @step n2 m2 d2 item2 hn hlk hmt ihn =>
    obtain ⟨hnf, hbound⟩ := ihn
    obtain ⟨item', hlk', hcl⟩ := inv.doneClosed _ hnf
    rw [hlk] at hlk'
    obtain rfl := Option.some.inj hlk'
    obtain ⟨hmf, hdb⟩ := hcl _ hmt
    refine ⟨hmf, fun dm hdm => ?_⟩
    have hnc2 : n2 ∈ st.edges.map Prod.snd := by
      rw [inv.children]
      exact hnf
    have hnd : depthOf st.edges n2 = some (depD st.edges n2) :=
      depthOf_eq_some_depD st.edges n2 hnc2
    have hnb := hbound _ hnd
    have hdm' : depD st.edges m2 = dm := by
      rw [depD, hdm]
      rfl
    omega

/-- Counting occurrences in a duplicate-free list. -/
theorem countP_eq_one_of_nodup (l : List String) (m : String)
    (hnd : l.Nodup) (hm : m ∈ l) :
    List.countP (fun x => decide (x = m)) l = 1 := by
  induction l with
  | nil => simp at hm
  | cons a t ih =>
    rw [List.nodup_cons] at hnd
    by_cases ha : a = m
    · subst ha
      rw [List.countP_cons]
      have hz : List.countP (fun x => decide (x = a)) t = 0 := by
        refine List.countP_eq_zero.mpr ?_
        intro x hx
        simp only [decide_eq_true_eq]
        intro he
        exact hnd.1 (he ▸ hx)
      simp [hz]
    · rcases List.mem_cons.mp hm with he | hmt
      · exact absurd he.symm ha
      · rw [List.countP_cons]
        simp only [decide_eq_true_eq]
        rw [ih hnd.2 hmt]
        simp [ha]

/-- C9.  `makeTree` succeeds exactly when every module reachable from
the entry points is a key of `result.tree`; when a reachable name is
missing, the dequeue loop faults on that name (reading the tree entry)
instead of skipping it, and the fuel of the model never runs out. -/
theorem makeTree_totality (r : BuildResultM) :
    ((∃ st, makeTree r = .ok st) ↔ ∀ m, Reachable r m → m ∈ r.tree.map Prod.fst) ∧
    (∀ m, makeTree r = .error (.missingModule m) →
       Reachable r m ∧ m ∉ r.tree.map Prod.fst) ∧
    makeTree r ≠ .error .outOfFuel := by
  have inv₀ := treeInv_init r.tree (entryPointsOf r)
  have hspec := reportAll_spec (none : Option String) (entryPointsOf r) initTreeState
  have hq₀ : (reportAll (none : Option String) (entryPointsOf r) initTreeState).queue =
      newFrom [] (entryPointsOf r) := by rw [hspec]; rfl
  have hf₀ : (reportAll (none : Option String) (entryPointsOf r) initTreeState).found =
      newFrom [] (entryPointsOf r) := by rw [hspec]; rfl
  have hflen : (newFrom [] (entryPointsOf r)).length ≤
      ((entryPointsOf r ++ allTargets r.tree).dedup).length := by
    have hnd : (newFrom [] (entryPointsOf r)).Nodup := by
      simpa using newFrom_nodup_append (entryPointsOf r) [] List.nodup_nil
    have hsp : List.Subperm (newFrom [] (entryPointsOf r))
        ((entryPointsOf r ++ allTargets r.tree).dedup) := by
      refine hnd.subperm ?_
      intro x hx
      refine List.mem_dedup.mpr ?_
      have hx' : x ∈ (reportAll (none : Option String) (entryPointsOf r) initTreeState).found := by
        rw [hf₀]
        exact hx
      exact inv₀.foundUniv x hx'
    exact hsp.length_le
  have hmaster := makeTreeLoop_master r.tree (entryPointsOf r) (makeTreeFuel r) []
    (reportAll none (entryPointsOf r) initTreeState) inv₀
    (by rw [hq₀, hf₀]; unfold makeTreeFuel; omega)
  have hdef : makeTree r = makeTreeLoop r.tree (makeTreeFuel r)
      (reportAll none (entryPointsOf r) initTreeState) := rfl
  rcases hmaster with ⟨st', hok, hinv, hqnil⟩ | ⟨mm, herr, hlkm, hrm⟩
  · rw [← hdef] at hok
    refine ⟨⟨fun _ m hr2 => ?_, fun _ => ⟨st', hok⟩⟩, fun m hm => ?_, fun hm => ?_⟩
    · obtain ⟨d, hd⟩ := hr2
      have hmem := (final_complete_optimal r.tree (entryPointsOf r) st' hinv hqnil m d hd).1
      obtain ⟨it, hit, _⟩ := hinv.doneClosed m hmem
      exact List.mem_map.mpr ⟨(m, it), lookupStr_mem hit, rfl⟩
    · rw [hok] at hm
      cases hm
    · rw [hok] at hm
      cases hm
  · rw [← hdef] at herr
    refine ⟨⟨fun hex m hr2 => ?_, fun hall => ?_⟩, fun m hm => ?_, fun hm => ?_⟩
    · obtain ⟨st, hst⟩ := hex
      rw [herr] at hst
      cases hst
    · exact absurd ((lookupStr_none_iff _ _).mp hlkm) (by simpa using hall mm hrm)
    · rw [herr] at hm
      obtain rfl : mm = m := by
        have := TreeErr.missingModule.inj (Except.error.inj hm)
        exact this
      exact ⟨hrm, (lookupStr_none_iff _ _).mp hlkm⟩
    · rw [herr] at hm
      simp at hm

/-- C6.  In the tree `makeTree` returns, every reachable module appears
as a branch exactly once, attached under the branch of the
earliest-processed importer that first discovered it (entry points under
the synthetic root), and its depth is the minimum import-hop count from
the synthetic root. -/
theorem makeTree_spec (r : BuildResultM) (st : TreeState) (hok : makeTree r = .ok st) :
    (∀ m, Reachable r m → m ∈ st.found) ∧
    st.found.Nodup ∧
    st.edges.map Prod.snd = st.found ∧
    (∀ m ∈ st.found, (st.edges.filter (fun e => decide (e.2 = m))).length = 1) ∧
    (∀ e ∈ st.edges, (e.1 = none → e.2 ∈ entryPointsOf r) ∧
       (∀ p, e.1 = some p → e.2 ∉ entryPointsOf r ∧ p ∈ st.found ∧
         (∃ item, lookupStr r.tree p = some item ∧ e.2 ∈ depTargets item) ∧
         (∀ q ∈ st.found, (∃ it, lookupStr r.tree q = some it ∧ e.2 ∈ depTargets it) →
            st.found.indexOf p ≤ st.found.indexOf q))) ∧
    (∀ m ∈ st.found, ∃ d, depthOf st.edges m = some d ∧
       Reaches r.tree (entryPointsOf r) m d ∧
       ∀ d2, Reaches r.tree (entryPointsOf r) m d2 → d ≤ d2) := by
  have inv₀ := treeInv_init r.tree (entryPointsOf r)
  have hspec := reportAll_spec (none : Option String) (entryPointsOf r) initTreeState
  have hq₀ : (reportAll (none : Option String) (entryPointsOf r) initTreeState).queue =
      newFrom [] (entryPointsOf r) := by rw [hspec]; rfl
  have hf₀ : (reportAll (none : Option String) (entryPointsOf r) initTreeState).found =
      newFrom [] (entryPointsOf r) := by rw [hspec]; rfl
  have hflen : (newFrom [] (entryPointsOf r)).length ≤
      ((entryPointsOf r ++ allTargets r.tree).dedup).length := by
    have hnd : (newFrom [] (entryPointsOf r)).Nodup := by
      simpa using newFrom_nodup_append (entryPointsOf r) [] List.nodup_nil
    have hsp : List.Subperm (newFrom [] (entryPointsOf r))
        ((entryPointsOf r ++ allTargets r.tree).dedup) := by
      refine hnd.subperm ?_
      intro x hx
      refine List.mem_dedup.mpr ?_
      have hx' : x ∈ (reportAll (none : Option String) (entryPointsOf r) initTreeState).found := by
        rw [hf₀]
        exact hx
      exact inv₀.foundUniv x hx'
    exact hsp.length_le
  have hmaster := makeTreeLoop_master r.tree (entryPointsOf r) (makeTreeFuel r) []
    (reportAll none (entryPointsOf r) initTreeState) inv₀
    (by rw [hq₀, hf₀]; unfold makeTreeFuel; omega)
  have hdef : makeTree r = makeTreeLoop r.tree (makeTreeFuel r)
      (reportAll none (entryPointsOf r) initTreeState) := rfl
  rcases hmaster with ⟨st', hok', hinv, hqnil⟩ | ⟨mm, herr, _, _⟩
  · rw [← hdef, hok] at hok'
    obtain rfl : st = st' := Except.ok.inj hok'
    refine ⟨?_, hinv.nodup, hinv.children, ?_, ?_, ?_⟩
    · intro m hr2
      obtain ⟨d, hd⟩ := hr2
      exact (final_complete_optimal r.tree (entryPointsOf r) st hinv hqnil m d hd).1
    · intro m hm
      rw [← List.countP_eq_length_filter]
      rw [show (fun (e : Option String × String) => decide (e.2 = m)) =
        ((fun x => decide (x = m)) ∘ Prod.snd) from rfl]
      rw [← List.countP_map, hinv.children]
      exact countP_eq_one_of_nodup st.found m hinv.nodup hm
    · intro e he
      refine ⟨fun h0 => hinv.rootEdge e he h0, fun p hp => ?_⟩
      obtain ⟨hpd, hne, hex, hmin⟩ := hinv.parentEdge e he p hp
      exact ⟨hne, hpd, hex, hmin⟩
    · intro m hm
      have hmc : m ∈ st.edges.map Prod.snd := hinv.children.symm ▸ hm
      refine ⟨depD st.edges m, depthOf_eq_some_depD st.edges m hmc,
        hinv.soundDepth m hm, ?_⟩
      intro d2 hd2
      exact (final_complete_optimal r.tree (entryPointsOf r) st hinv hqnil m d2 hd2).2
        (depD st.edges m) (depthOf_eq_some_depD st.edges m hmc)
  · rw [← hdef, hok] at herr
    cases herr

/-- Example bundle: `A` imports `B` and `C`, `B` imports `C`, entry
point `A` — the shortest-chain example of the specification. -/
def treeResult : BuildResultM :=
  { tree := [("A", { deps := ["b", "c"], depMap := [("b", "B"), ("c", "C")] }),
             ("B", { deps := ["c"], depMap := [("c", "C")] }),
             ("C", { deps := [], depMap := [] })],
    entryPoints := some ["A"] }

/-- The traversal outcome on `treeResult`: `C` hangs under `A`, not
under `B`. -/
def treeResultOut : TreeState :=
  { queue := [], found := ["A", "B", "C"],
    edges := [(none, "A"), (some "A", "B"), (some "A", "C")] }

/-- C6 witness: the spec instance, discharging the success hypothesis by
evaluation. -/
theorem makeTree_spec_witness :
    makeTree treeResult = .ok treeResultOut ∧
    treeResultOut.found.Nodup ∧
    treeResultOut.edges.map Prod.snd = treeResultOut.found ∧
    (∀ m ∈ treeResultOut.found,
      (treeResultOut.edges.filter (fun e => decide (e.2 = m))).length = 1) :=
  ⟨by rfl, (makeTree_spec treeResult treeResultOut (by rfl)).2.1,
   (makeTree_spec treeResult treeResultOut (by rfl)).2.2.1,
   (makeTree_spec treeResult treeResultOut (by rfl)).2.2.2.1⟩

/-- Bundle whose reachable module `B` is missing from the tree. -/
def missingResult : BuildResultM :=
  { tree := [("A", { deps := ["b"], depMap := [("b", "B")] })],
    entryPoints := some ["A"] }

/-- C9 witness: on `treeResult` the traversal succeeds, and on
`missingResult` it faults on the reachable missing name `B`. -/
theorem makeTree_totality_witness :
    (∃ st, makeTree treeResult = .ok st) ∧
    makeTree treeResult ≠ .error .outOfFuel ∧
    makeTree missingResult = .error (.missingModule "B") ∧
    (Reachable missingResult "B" ∧ "B" ∉ missingResult.tree.map Prod.fst) :=
  ⟨⟨treeResultOut, by rfl⟩, (makeTree_totality treeResult).2.2, by rfl,
   (makeTree_totality missingResult).2.1 "B" (by rfl)⟩

/-! ## Claim theorems: path/URL codec (C7) -/

/-- Validity of a native POSIX path name: nonempty and free of NUL
bytes (every such string names a legal path on the platform). -/
def validPosixPath (s : String) : Bool :=
  !s.data.isEmpty && s.data.all (fun c => c.toNat != 0)

/-- C7 counterexample: `file://a` is a valid (relative) POSIX path name,
yet the codec round trip strips its scheme-like prefix, so
`toNativePath (toUrl p) = p` does not hold for every valid native
path. -/
theorem url_roundtrip_cex :
    validPosixPath "file://a" = true ∧
    url2path (path2url "file://a") = "a" ∧ ("a" : String) ≠ "file://a" :=
  ⟨by decide, by decide, by decide⟩

/-- C7 (amended).  For every native path that does not itself begin with
the `file://` marker — in particular every absolute path — the codec
round trip is the identity.  Both functions are pure total Lean
functions, so purity and totality hold by construction. -/
theorem url_roundtrip (p : String) (h : fileScheme.isPrefixOf p.data = false) :
    url2path (path2url p) = p := by
  obtain ⟨data⟩ := p
  cases data with
  | nil => rfl
  | cons c rest =>
    by_cases hc : c = '/'
    · subst hc
      rfl
    · have hp2 : path2url (String.mk (c :: rest)) = String.mk (c :: rest) := by
        unfold path2url
        split
        · rename_i heq
          injection heq with h1 h2
          exact absurd h1 hc
        · rfl
      rw [hp2]
      unfold url2path
      simp [h]

/-- C7 witness: the round trip on the absolute path `/usr/lib/a.js`. -/
theorem url_roundtrip_witness : url2path (path2url "/usr/lib/a.js") = "/usr/lib/a.js" :=
  url_roundtrip "/usr/lib/a.js" (by decide)

/-! ## Claim theorems: config emitter (C3, C10) -/

/-- C10.  When config output is requested but `includeConfigList` was
omitted, `writeConfig` faults on the member access
`options.includeConfigList.map` (modelled as `none`) rather than
behaving as if the list were empty; supplying an explicit empty list
emits successfully. -/
theorem writeConfig_requires_includeConfigList (options : BuildOptions)
    (readFile : String → String)
    (repoTbl : List (String × List (String × PackageSpec)))
    (fixTbl : List (String × String)) (shimPath : String)
    (houtp : options.outConfigPath.isSome = true)
    (hinc : options.includeConfigList = none) :
    writeConfig options readFile repoTbl fixTbl shimPath = none ∧
    writeConfig { options with includeConfigList := some [] } readFile repoTbl fixTbl shimPath =
      some (writeConfigOutput [] repoTbl fixTbl shimPath) := by
  constructor
  · unfold writeConfig
    rw [hinc]
  · rfl

/-- C10 witness: an options object with only `outConfigPath` set. -/
theorem writeConfig_requires_includeConfigList_witness :
    writeConfig { outConfigPath := some "config.js" } (fun _ => "") [] [] "shim.js" = none ∧
    writeConfig { outConfigPath := some "config.js", includeConfigList := some [] }
        (fun _ => "") [] [] "shim.js" =
      some (writeConfigOutput [] [] [] "shim.js") :=
  writeConfig_requires_includeConfigList { outConfigPath := some "config.js" }
    (fun _ => "") [] [] "shim.js" (by rfl) (by rfl)

/-! ## Order theory of the key sort (towards C3) -/

theorem char_toNat_inj {x y : Char} (h : x.toNat = y.toNat) : x = y := by
  cases x with
  | mk v hv =>
    cases y with
    | mk w hw =>
      have hvw : v = w := UInt32.ext h
      subst hvw
      rfl

theorem charsLe_trans (a : List Char) : ∀ (b c : List Char),
    charsLe a b = true → charsLe b c = true → charsLe a c = true := by
  induction a with
  | nil =>
    intro b c _ _
    rfl
  | cons x xs ih =>
    intro b c h1 h2
    cases b with
    | nil =>
      rw [charsLe] at h1
      exact absurd h1 (by simp)
    | cons y ys =>
      cases c with
      | nil =>
        rw [charsLe] at h2
        exact absurd h2 (by simp)
      | cons z zs =>
        rw [charsLe] at h1 h2 ⊢
        rcases Nat.lt_trichotomy x.toNat y.toNat with hxy | hxy | hxy <;>
          rcases Nat.lt_trichotomy y.toNat z.toNat with hyz | hyz | hyz
        · simp [show x.toNat < z.toNat by omega]
        · simp [show x.toNat < z.toNat by omega]
        · rw [if_neg (by omega), if_pos (by omega)] at h2
          exact absurd h2 (by simp)
        · simp [show x.toNat < z.toNat by omega]
        · rw [if_neg (by omega), if_neg (by omega)] at h1
          rw [if_neg (by omega), if_neg (by omega)] at h2
          rw [if_neg (by omega), if_neg (by omega)]
          exact ih ys zs h1 h2
        · rw [if_neg (by omega), if_pos (by omega)] at h2
          exact absurd h2 (by simp)
        · rw [if_neg (by omega), if_pos (by omega)] at h1
          exact absurd h1 (by simp)
        · rw [if_neg (by omega), if_pos (by omega)] at h1
          exact absurd h1 (by simp)
        · rw [if_neg (by omega), if_pos (by omega)] at h1
          exact absurd h1 (by simp)

theorem charsLe_total (a : List Char) : ∀ b, charsLe a b = true ∨ charsLe b a = true := by
  induction a with
  | nil =>
    intro b
    exact Or.inl rfl
  | cons x xs ih =>
    intro b
    cases b with
    | nil => exact Or.inr rfl
    | cons y ys =>
      rw [charsLe, charsLe]
      rcases Nat.lt_trichotomy x.toNat y.toNat with h | h | h
      · left
        simp [h]
      · rcases ih ys with h2 | h2
        · left
          rw [if_neg (by omega), if_neg (by omega)]
          exact h2
        · right
          rw [if_neg (by omega), if_neg (by omega)]
          exact h2
      · right
        simp [h]

theorem charsLe_antisymm (a : List Char) : ∀ b,
    charsLe a b = true → charsLe b a = true → a = b := by
  induction a with
  | nil =>
    intro b _ h2
    cases b with
    | nil => rfl
    | cons y ys =>
      rw [charsLe] at h2
      exact absurd h2 (by simp)
  | cons x xs ih =>
    intro b h1 h2
    cases b with
    | nil =>
      rw [charsLe] at h1
      exact absurd h1 (by simp)
    | cons y ys =>
      rw [charsLe] at h1 h2
      rcases Nat.lt_trichotomy x.toNat y.toNat with h | h | h
      · rw [if_neg (by omega), if_pos (by omega)] at h2
        exact absurd h2 (by simp)
      · rw [if_neg (by omega), if_neg (by omega)] at h1
        rw [if_neg (by omega), if_neg (by omega)] at h2
        rw [char_toNat_inj h, ih ys h1 h2]
      · rw [if_neg (by omega), if_pos (by omega)] at h1
        exact absurd h1 (by simp)

theorem strLe_antisymm (a b : String) (h1 : strLe a b = true) (h2 : strLe b a = true) :
    a = b := by
  obtain ⟨da⟩ := a
  obtain ⟨db⟩ := b
  have : da = db := charsLe_antisymm da db h1 h2
  rw [this]

theorem insertSorted_sorted (s : String) (l : List String)
    (h : l.Pairwise (fun a b => strLe a b = true)) :
    (insertSorted s l).Pairwise (fun a b => strLe a b = true) := by
  induction l with
  | nil => simp [insertSorted]
  | cons t ts ih =>
    rw [List.pairwise_cons] at h
    by_cases hst : strLe s t = true
    · rw [insertSorted, if_pos hst]
      refine List.pairwise_cons.mpr ⟨?_, List.pairwise_cons.mpr h⟩
      intro b hb
      rcases List.mem_cons.mp hb with rfl | hb2
      · exact hst
      · exact charsLe_trans _ _ _ hst (h.1 b hb2)
    · rw [insertSorted, if_neg hst]
      refine List.pairwise_cons.mpr ⟨?_, ih h.2⟩
      intro b hb
      have hmem : b ∈ s :: ts := (insertSorted_perm s ts).mem_iff.mp hb
      rcases List.mem_cons.mp hmem with rfl | hb2
      · rcases charsLe_total t.data b.data with h2 | h2
        · exact h2
        · exact absurd h2 hst
      · exact h.1 b hb2

theorem sortStrings_sorted (l : List String) :
    (sortStrings l).Pairwise (fun a b => strLe a b = true) := by
  induction l with
  | nil => simp [sortStrings]
  | cons s ss ih => exact insertSorted_sorted s (sortStrings ss) ih

/-- The key sort is canonical: permuted inputs sort identically. -/
theorem sortStrings_eq_of_perm (l₁ l₂ : List String) (h : l₁.Perm l₂) :
    sortStrings l₁ = sortStrings l₂ := by
  have hp : (sortStrings l₁).Perm (sortStrings l₂) :=
    (sortStrings_perm l₁).trans (h.trans (sortStrings_perm l₂).symm)
  haveI : IsAntisymm String (fun a b => strLe a b = true) :=
    ⟨fun a b h1 h2 => strLe_antisymm a b h1 h2⟩
  exact List.eq_of_perm_of_sorted hp (sortStrings_sorted l₁) (sortStrings_sorted l₂)

/-! ## Merge and lookup lemmas (towards C3) -/

theorem jsSet_fresh {α : Type} (m : List (String × α)) (k : String) (v : α)
    (h : k ∉ m.map Prod.fst) : jsSet m k v = m ++ [(k, v)] := by
  induction m with
  | nil => rfl
  | cons hd tl ih =>
    simp only [List.map_cons, List.mem_cons, not_or] at h
    rw [jsSet, if_neg h.1, ih h.2]
    rfl

theorem foldl_jsSet_append :
    ∀ (inner acc : List (String × PackageSpec)),
    (∀ x ∈ inner.map Prod.fst, x ∉ acc.map Prod.fst) →
    (inner.map Prod.fst).Nodup →
    inner.foldl (fun a p => jsSet a p.1 p.2) acc = acc ++ inner
  | [], acc => by simp
  | (k, v) :: rest, acc => by
    intro hdisj hnd
    simp only [List.map_cons, List.nodup_cons] at hnd
    have hk : k ∉ acc.map Prod.fst := hdisj k (by simp)
    show rest.foldl (fun a p => jsSet a p.1 p.2) (jsSet acc k v) = acc ++ (k, v) :: rest
    rw [jsSet_fresh acc k v hk]
    rw [foldl_jsSet_append rest (acc ++ [(k, v)]) ?_ hnd.2]
    · simp
    · intro x hx
      simp only [List.map_append, List.mem_append, not_or]
      refine ⟨hdisj x (by simp [hx]), ?_⟩
      simp only [List.map_cons, List.map_nil, List.mem_singleton]
      intro he
      exact hnd.1 (he ▸ hx)

theorem mergePackageTbl_flatten :
    ∀ (repo : List (String × List (String × PackageSpec)))
      (acc : List (String × PackageSpec)),
    (((acc ++ (repo.map Prod.snd).flatten).map Prod.fst).Nodup) →
    repo.foldl (fun acc e => e.2.foldl (fun a p => jsSet a p.1 p.2) acc) acc =
      acc ++ (repo.map Prod.snd).flatten
  | [], acc => by simp
  | (key, inner) :: rest, acc => by
    intro hnd
    simp only [List.map_cons, List.flatten_cons] at hnd
    rw [← List.append_assoc] at hnd
    have hnd' := hnd
    rw [List.map_append, List.nodup_append] at hnd'
    have hinner : inner.foldl (fun a p => jsSet a p.1 p.2) acc = acc ++ inner := by
      refine foldl_jsSet_append inner acc ?_ ?_
      · intro x hx hxa
        have h1 : x ∈ ((acc ++ inner).map Prod.fst) := by
          rw [List.map_append]
          exact List.mem_append.mpr (Or.inl hxa)
        have h2 : ((acc ++ inner).map Prod.fst).Nodup := hnd'.1
        rw [List.map_append, List.nodup_append] at h2
        exact h2.2.2 hxa hx
      · have h2 := hnd'.1
        rw [List.map_append, List.nodup_append] at h2
        exact h2.2.1
    show rest.foldl _ (inner.foldl (fun a p => jsSet a p.1 p.2) acc) = _
    rw [hinner, mergePackageTbl_flatten rest (acc ++ inner) (by simpa [List.append_assoc] using hnd)]
    simp

/-- Under globally distinct package names, the `packageTbl` merge is the
concatenation of all repository tables, in repository order. -/
theorem mergePackageTbl_eq (repo : List (String × List (String × PackageSpec)))
    (hnd : (((repo.map Prod.snd).flatten).map Prod.fst).Nodup) :
    mergePackageTbl repo = (repo.map Prod.snd).flatten := by
  have := mergePackageTbl_flatten repo [] (by simpa using hnd)
  simpa [mergePackageTbl] using this

theorem lookupStr_eq_of_perm {α : Type} (m₁ m₂ : List (String × α)) (h : m₁.Perm m₂)
    (hnd : (m₁.map Prod.fst).Nodup) (k : String) : lookupStr m₁ k = lookupStr m₂ k := by
  cases hl : lookupStr m₁ k with
  | some v =>
    have hmem : (k, v) ∈ m₂ := h.mem_iff.mp (lookupStr_mem hl)
    exact (lookupStr_of_mem_nodup hmem ((h.map Prod.fst).nodup_iff.mp hnd)).symm
  | none =>
    have h2 : k ∉ m₂.map Prod.fst := fun hm =>
      ((lookupStr_none_iff _ _).mp hl) ((h.map Prod.fst).mem_iff.mpr hm)
    exact ((lookupStr_none_iff _ _).mpr h2).symm

theorem perm_flatten {α : Type} {l₁ l₂ : List (List α)} (h : l₁.Perm l₂) :
    l₁.flatten.Perm l₂.flatten := by
  induction h with
  | nil => exact List.Perm.refl _
  | cons x _ ih => simpa [List.flatten_cons] using ih.append_left x
  | swap x y l =>
    simp only [List.flatten_cons, ← List.append_assoc]
    exact List.Perm.append_right _ List.perm_append_comm
  | trans _ _ ih1 ih2 => exact ih1.trans ih2

/-! ## Claim theorems: config emitter determinism (C3) -/

/-- C3 counterexample: two FixTables with identical key-value contents
(they are permutations of each other) but different insertion orders
produce different emitted texts — the fix sections iterate
`Object.keys(fixTbl)` in insertion order, without sorting. -/
theorem writeConfig_determinism_cex :
    List.Perm [("./a", "./p"), ("./b", "./q")] [("./b", "./q"), ("./a", "./p")] ∧
    writeConfigOutput [] [] [("./a", "./p"), ("./b", "./q")] "shim.js" ≠
      writeConfigOutput [] [] [("./b", "./q"), ("./a", "./p")] "shim.js" :=
  ⟨by decide, by decide⟩

/-- Two nested tables are identically populated up to insertion order:
one reorders into the other by permuting the repository entries and then
permuting each repository's package list, keys and values unchanged.
This covers both a different insertion order of the repository keys and
a different insertion order of the package names inside any single
repository. -/
def tblEquiv (repo₁ repo₂ : List (String × List (String × PackageSpec))) : Prop :=
  ∃ repo', repo₁.Perm repo' ∧
    List.Forall₂ (fun e₁ e₂ => e₁.1 = e₂.1 ∧ e₁.2.Perm e₂.2) repo' repo₂

theorem forall2_keys_eq {r₁ r₂ : List (String × List (String × PackageSpec))}
    (h : List.Forall₂ (fun e₁ e₂ => e₁.1 = e₂.1 ∧ e₁.2.Perm e₂.2) r₁ r₂) :
    r₁.map Prod.fst = r₂.map Prod.fst := by
  induction h with
  | nil => rfl
  | cons h₁ _ ih => simp only [List.map_cons, h₁.1, ih]

theorem forall2_snd_perm {r₁ r₂ : List (String × List (String × PackageSpec))}
    (h : List.Forall₂ (fun e₁ e₂ => e₁.1 = e₂.1 ∧ e₁.2.Perm e₂.2) r₁ r₂) :
    List.Forall₂ (fun a b => a.Perm b) (r₁.map Prod.snd) (r₂.map Prod.snd) := by
  induction h with
  | nil => exact List.Forall₂.nil
  | cons h₁ _ ih => exact List.Forall₂.cons h₁.2 ih

/-- C3 (amended).  The package map, shim meta and entry-point sections
iterate in explicit sort order, so two emit calls on identically
populated repository tables — the same repository keys bound to the same
package bindings, in any insertion order of the repository keys and any
insertion order of the package names within each repository (package
names globally distinct, as one session's table has) — and with equal
fix tables produce byte-identical output; only the FixTable sections
keep insertion order, which the counterexample shows to matter. -/
theorem writeConfig_determinism (inc : List String)
    (repo₁ repo₂ : List (String × List (String × PackageSpec)))
    (fix : List (String × String)) (shimPath : String)
    (heqv : tblEquiv repo₁ repo₂)
    (hnd : (((repo₁.map Prod.snd).flatten).map Prod.fst).Nodup) :
    writeConfigOutput inc repo₁ fix shimPath = writeConfigOutput inc repo₂ fix shimPath := by
  obtain ⟨repo', hperm, hf2⟩ := heqv
  have hpf : ((repo₁.map Prod.snd).flatten).Perm ((repo₂.map Prod.snd).flatten) :=
    (perm_flatten (hperm.map Prod.snd)).trans (List.Perm.flatten_congr (forall2_snd_perm hf2))
  have hrkperm : (repo₁.map Prod.fst).Perm (repo₂.map Prod.fst) := by
    have h1 := hperm.map Prod.fst
    rwa [forall2_keys_eq hf2] at h1
  have hnd₂ : (((repo₂.map Prod.snd).flatten).map Prod.fst).Nodup :=
    ((hpf.map Prod.fst).nodup_iff).mp hnd
  have hm₁ := mergePackageTbl_eq repo₁ hnd
  have hm₂ := mergePackageTbl_eq repo₂ hnd₂
  have hpm : (mergePackageTbl repo₁).Perm (mergePackageTbl repo₂) := by
    rw [hm₁, hm₂]
    exact hpf
  have hndm : ((mergePackageTbl repo₁).map Prod.fst).Nodup := by
    rw [hm₁]
    exact hnd
  have hkeys : sortStrings ((mergePackageTbl repo₁).map Prod.fst) =
      sortStrings ((mergePackageTbl repo₂).map Prod.fst) :=
    sortStrings_eq_of_perm _ _ (hpm.map Prod.fst)
  have hlook : lookupStr (mergePackageTbl repo₁) = lookupStr (mergePackageTbl repo₂) :=
    funext (fun k => lookupStr_eq_of_perm _ _ hpm hndm k)
  have hrkeys : sortStrings (repo₁.map Prod.fst) = sortStrings (repo₂.map Prod.fst) :=
    sortStrings_eq_of_perm _ _ hrkperm
  have hmap : mapSection (mergePackageTbl repo₁) = mapSection (mergePackageTbl repo₂) := by
    unfold mapSection mapLines
    rw [hkeys, hlook]
  have hmeta : metaSection repo₁ shimPath = metaSection repo₂ shimPath := by
    unfold metaSection metaLines
    rw [hrkeys]
  have hpkg : packagesSection (mergePackageTbl repo₁) fix =
      packagesSection (mergePackageTbl repo₂) fix := by
    unfold packagesSection mainLines
    rw [hkeys, hlook]
  simp only [writeConfigOutput]
  rw [hmap, hmeta, hpkg]

/-- Repository tables used to witness the amended determinism claim. -/
def specA : PackageSpec := { entryPath := some "index.js", rootPath := "node_modules/a" }

/-- Second sample spec, a sub-module record without entry point. -/
def specB : PackageSpec := { entryPath := none, rootPath := "node_modules/b/main.js" }

/-- Third sample spec, living in a second repository. -/
def specC : PackageSpec := { entryPath := some "lib/c.js", rootPath := "packages/c" }

/-- C3 witness: the same two-repository table with the repository keys
in different insertion orders and, inside the `node_modules` repository,
the package names `a` and `b` in different insertion orders, emits
byte-identical text. -/
theorem writeConfig_determinism_witness :
    tblEquiv [("node_modules", [("a", specA), ("b", specB)]), ("packages", [("c", specC)])]
      [("packages", [("c", specC)]), ("node_modules", [("b", specB), ("a", specA)])] ∧
    writeConfigOutput ["// extra\n"]
        [("node_modules", [("a", specA), ("b", specB)]), ("packages", [("c", specC)])]
        [] "shim.js" =
      writeConfigOutput ["// extra\n"]
        [("packages", [("c", specC)]), ("node_modules", [("b", specB), ("a", specA)])]
        [] "shim.js" := by
  have heqv : tblEquiv
      [("node_modules", [("a", specA), ("b", specB)]), ("packages", [("c", specC)])]
      [("packages", [("c", specC)]), ("node_modules", [("b", specB), ("a", specA)])] :=
    ⟨[("packages", [("c", specC)]), ("node_modules", [("a", specA), ("b", specB)])],
     by decide,
     List.Forall₂.cons ⟨rfl, by decide⟩ (List.Forall₂.cons ⟨rfl, by decide⟩ List.Forall₂.nil)⟩
  exact ⟨heqv,
    writeConfig_determinism ["// extra\n"]
      [("node_modules", [("a", specA), ("b", specB)]), ("packages", [("c", specC)])]
      [("packages", [("c", specC)]), ("node_modules", [("b", specB), ("a", specA)])]
      [] "shim.js" heqv (by decide)⟩

end Cbuild
